import Mathlib

/-
Verification of the txt-to-epub converter (converter.py) against its
natural-language specification.  Strings are modelled as `List Char`
(Python `str` is a sequence of unicode code points).  The two regular
expressions of the source are small and fixed, so they are embedded as
executable matchers with Python `re` leftmost / lazy / backtracking
semantics worked out by hand:

  PLACEHOLDER_REGEX = '\n(（?插圖）?)\n'
  CHAPTER_REGEX     = r'\n\n(.*?[章話]　.*?)\n\n'
-/

/-- Matcher for the part of `PLACEHOLDER_REGEX` after the leading newline
and optional fullwidth `（`: the literal `插圖`, an optional `）`, then a
newline.  Returns the number of characters consumed.  Backtracking note:
`）?` is greedy, but if `）` is present and not followed by `\n` the
empty alternative also fails (it would need `\n` where `）` stands), so
the matcher is deterministic. -/
def markerTail : List Char → Option Nat
  | a :: b :: c :: rest =>
    if a = '插' ∧ b = '圖' then
      if c = '）' then
        match rest with
        | d :: _ => if d = '\n' then some 4 else none
        | [] => none
      else if c = '\n' then some 3 else none
    else none
  | _ => none

/-- Matcher for `PLACEHOLDER_REGEX = '\n(（?插圖）?)\n'` anchored at the
head of the list; returns the length of the match.  `（?` is greedy, and
if taking `（` fails later the empty alternative also fails (it would
need `插` where `（` stands), so the matcher is deterministic. -/
def markerAt : List Char → Option Nat
  | a :: rest =>
    if a = '\n' then
      match rest with
      | b :: rest2 =>
        if b = '（' then (markerTail rest2).map (· + 2)
        else (markerTail rest).map (· + 1)
      | [] => none
    else none
  | [] => none

/-- Number of positions of the text where `PLACEHOLDER_REGEX` matches
(overlapping occurrences, which share a newline, are all counted).  This
is the number of placeholder markers available to sequential
single-substitution, because each substitution re-inserts the flanking
newlines. -/
def markerCount : List Char → Nat
  | [] => 0
  | c :: rest => (if (markerAt (c :: rest)).isSome then 1 else 0) + markerCount rest

/-- Python `placeholder_pattern.subn(tag, content, 1)`: replace the
leftmost match of `PLACEHOLDER_REGEX` by `tag`; `none` when there is no
match (count 0). -/
def subnOnce (tag : List Char) : List Char → Option (List Char)
  | [] => none
  | c :: rest =>
    match markerAt (c :: rest) with
    | some len => some (tag ++ (c :: rest).drop len)
    | none => (subnOnce tag rest).map (c :: ·)

/-- Image reference tag built in `replace_placeholders_with_images`:
`f'\n<img src="images/{img_filename}" alt="{img_filename}"/>\n'`.
The tag is spliced into the text literally, which matches `re.subn` for
filenames without backslashes (`subn` interprets backslash escapes in
the replacement template). -/
def imgTag (fn : List Char) : List Char :=
  "\n<img src=\"images/".data ++ fn ++ "\" alt=\"".data ++ fn ++ "\"/>\n".data

/-- Interior of the image tag (everything strictly between the two
flanking newlines). -/
def tagMid (fn : List Char) : List Char :=
  "<img src=\"images/".data ++ fn ++ "\" alt=\"".data ++ fn ++ "\"/>".data

/-- The loop of `replace_placeholders_with_images`: for each image file
name in order, replace one placeholder (`subn(..., 1)`); stop at the
first scan that finds no marker. -/
def replace_placeholders_with_images : List Char → List (List Char) → List Char
  | content, [] => content
  | content, fn :: fns =>
    match subnOnce (imgTag fn) content with
    | some c2 => replace_placeholders_with_images c2 fns
    | none => content

/-- Number of substitutions performed by the loop of
`replace_placeholders_with_images`. -/
def numReplaced : List Char → List (List Char) → Nat
  | _, [] => 0
  | content, fn :: fns =>
    match subnOnce (imgTag fn) content with
    | some c2 => numReplaced c2 fns + 1
    | none => 0

/-- The image file names actually consumed by the loop of
`replace_placeholders_with_images`, in the order they are consumed. -/
def usedImages : List Char → List (List Char) → List (List Char)
  | _, [] => []
  | content, fn :: fns =>
    match subnOnce (imgTag fn) content with
    | some c2 => fn :: usedImages c2 fns
    | none => []

/-- Frame relation: `SpansRewrite input used output` holds when `output`
is `input` with successive placeholder-marker occurrences (each one a
span `core ++ ['\n']` matched by `PLACEHOLDER_REGEX`, `core` starting
with the leading newline of the match) replaced by the image tag built
from the corresponding name in `used`; all characters outside the
replaced spans are carried over verbatim.  The trailing newline of each
replaced span is re-inserted by the tag (the tag without its final
newline is spliced in, and the continuation keeps the shared
newline), which is exactly how `re.subn` rewrites the text. -/
inductive SpansRewrite : List Char → List (List Char) → List Char → Prop where
  | done (s : List Char) : SpansRewrite s [] s
  | step (A core B out : List Char) (fn : List Char) (fns : List (List Char)) :
      markerAt (core ++ '\n' :: B) = some (core.length + 1) →
      SpansRewrite ('\n' :: B) fns out →
      SpansRewrite (A ++ core ++ '\n' :: B) (fn :: fns) (A ++ (imgTag fn).dropLast ++ out)

/-- Ordered frame relation for the substitution loop: as `SpansRewrite`,
but each step additionally requires that no marker match starts in the
prefix `A` before the replaced span — so the replaced marker is the
leftmost marker of the text being rewritten — and the rewrite then
continues strictly to the right of the replaced span.  A derivation
therefore consumes markers strictly in left-to-right document order,
skipping none, pairing the i-th marker with the i-th name of `used`,
and the `done` leaf carries the untouched trailing rest of the text
(where any unreplaced markers survive verbatim). -/
inductive LeftmostRewrite : List Char → List (List Char) → List Char → Prop where
  | done (s : List Char) : LeftmostRewrite s [] s
  | step (A core B out : List Char) (fn : List Char) (fns : List (List Char)) :
      markerAt (core ++ '\n' :: B) = some (core.length + 1) →
      (∀ i < A.length, markerAt (A.drop i ++ core ++ '\n' :: B) = none) →
      LeftmostRewrite ('\n' :: B) fns out →
      LeftmostRewrite (A ++ core ++ '\n' :: B) (fn :: fns) (A ++ (imgTag fn).dropLast ++ out)

/-- Matcher for the lazy sub-pattern `.*?\n\n` of `CHAPTER_REGEX` (with
`.` not matching newlines): scan to the first newline; the match
succeeds exactly when that newline is immediately followed by another
one, consuming everything up to and including the two newlines.  Lazy
expansion cannot skip a newline, so no other outcome is reachable by
backtracking. -/
def lazyToBlank : List Char → Option Nat
  | a :: rest =>
    if a = '\n' then
      match rest with
      | b :: _ => if b = '\n' then some 2 else none
      | [] => none
    else (lazyToBlank rest).map (· + 1)
  | [] => none

/-- Matcher for the group sub-pattern `.*?[章話]　.*?\n\n` of
`CHAPTER_REGEX` anchored at the head: lazily scan (without crossing a
newline) for a `章` or `話` followed by the fullwidth space `　`, then
require `lazyToBlank`; on failure of the tail, backtracking resumes the
scan one character further.  Returns the consumed length (including the
final two newlines). -/
def chapterBody : List Char → Option Nat
  | a :: rest =>
    if a = '\n' then none
    else if a = '章' ∨ a = '話' then
      match rest with
      | b :: v =>
        if b = '　' then
          match lazyToBlank v with
          | some k => some (k + 2)
          | none => (chapterBody rest).map (· + 1)
        else (chapterBody rest).map (· + 1)
      | [] => none
    else (chapterBody rest).map (· + 1)
  | [] => none

/-- Matcher for `CHAPTER_REGEX = r'\n\n(.*?[章話]　.*?)\n\n'` anchored
at the head of the list; returns the length of the match.  Group 1 is
the match without its first two and last two characters. -/
def chapterAt : List Char → Option Nat
  | a :: b :: rest =>
    if a = '\n' ∧ b = '\n' then (chapterBody rest).map (· + 2) else none
  | _ => none

/-- Python `pattern.search` from a given suffix: position and length of
the leftmost `CHAPTER_REGEX` match. -/
def findChapter : List Char → Option (Nat × Nat)
  | [] => none
  | c :: rest =>
    match chapterAt (c :: rest) with
    | some len => some (0, len)
    | none => (findChapter rest).map (fun q => (q.1 + 1, q.2))

/-- Python `pattern.finditer(text)`: successive non-overlapping matches,
each found by searching from the end of the previous one.  `s` is the
current suffix of the text, `off` its absolute offset; positions
returned are absolute.  The fuel argument only serves termination:
every match is nonempty, so `text.length + 1` steps always suffice. -/
def chapterMatchesFromF : Nat → List Char → Nat → List (Nat × Nat)
  | 0, _, _ => []
  | fuel + 1, s, off =>
    match findChapter s with
    | none => []
    | some (p, len) =>
      (off + p, len) :: chapterMatchesFromF fuel (s.drop (p + len)) (off + p + len)

/-- All non-overlapping matches of `CHAPTER_REGEX` in the text, with
absolute positions, as `pattern.finditer(text)` yields them. -/
def chapterMatches (text : List Char) : List (Nat × Nat) :=
  chapterMatchesFromF (text.length + 1) text 0

/-- Code points stripped by Python `str.strip()` (Unicode whitespace). -/
def pySpaceChars : List Char :=
  ['\t', '\n', Char.ofNat 0x0b, Char.ofNat 0x0c, '\r',
   Char.ofNat 0x1c, Char.ofNat 0x1d, Char.ofNat 0x1e, Char.ofNat 0x1f, ' ',
   Char.ofNat 0x85, Char.ofNat 0xa0, Char.ofNat 0x1680,
   Char.ofNat 0x2000, Char.ofNat 0x2001, Char.ofNat 0x2002, Char.ofNat 0x2003,
   Char.ofNat 0x2004, Char.ofNat 0x2005, Char.ofNat 0x2006, Char.ofNat 0x2007,
   Char.ofNat 0x2008, Char.ofNat 0x2009, Char.ofNat 0x200a,
   Char.ofNat 0x2028, Char.ofNat 0x2029, Char.ofNat 0x202f, Char.ofNat 0x205f,
   Char.ofNat 0x3000]

/-- Python whitespace test used by `str.strip()`. -/
def isPySpace (c : Char) : Bool := pySpaceChars.contains c

/-- Python `str.strip()`: remove leading and trailing whitespace. -/
def pystrip (s : List Char) : List Char :=
  ((s.dropWhile isPySpace).reverse.dropWhile isPySpace).reverse

/-- The `next_match.start() if next_match else len(text)` computation of
`split_into_chapters`, re-searching from position `e` (the end of the
current match) with `pattern.finditer(text, end)`. -/
def chapterNext (text : List Char) (e : Nat) : Nat :=
  match findChapter (text.drop e) with
  | some (q, _) => e + q
  | none => text.length

/-- The `first_match.start() if first_match else len(text)` computation
of `split_into_chapters`. -/
def prefaceEnd (text : List Char) : Nat :=
  match findChapter text with
  | some (p, _) => p
  | none => text.length

/-- The loop body of `split_into_chapters`: for each match `(p, len)`,
emit `(match.group(1).strip(), text[end:start_next].strip())`, where
group 1 spans the match without its two flanking newline pairs and
`start_next` is recomputed by `next(pattern.finditer(text, end))`. -/
def chapterEntries (text : List Char) : List (Nat × Nat) → List (List Char × List Char)
  | [] => []
  | (p, len) :: rest =>
    (pystrip ((text.drop (p + 2)).take (len - 4)),
     pystrip ((text.drop (p + len)).take (chapterNext text (p + len) - (p + len)))) ::
    chapterEntries text rest

/-- The function `split_into_chapters(text, pattern)` of the source: a
`("Preface", preface)` entry followed by one `(title, body)` entry per
match. -/
def split_into_chapters (text : List Char) : List (List Char × List Char) :=
  ("Preface".data, pystrip (text.take (prefaceEnd text))) ::
    chapterEntries text (chapterMatches text)

/-- Start of the next chapter according to the remaining match list
(rather than a re-search): the start of the following match, or the end
of the document.  This is the wording of the specification. -/
def nextStartOf (text : List Char) : List (Nat × Nat) → Nat
  | (q, _) :: _ => q
  | [] => text.length

/-- Modelled from the spec sentence for chapter rows: for the i-th
match, title is the captured group trimmed and body is the text strictly
between the end of that match and the start of the next match (or end
of document), trimmed.  Differs from `chapterEntries` in taking the next
start from the match list instead of re-searching. -/
def specEntries (text : List Char) : List (Nat × Nat) → List (List Char × List Char)
  | [] => []
  | (p, len) :: rest =>
    (pystrip ((text.drop (p + 2)).take (len - 4)),
     pystrip ((text.drop (p + len)).take (nextStartOf text rest - (p + len)))) ::
    specEntries text rest

/-- Modelled from the spec wording of segmentation: the preface is the
text before the first match (the whole text if none), trimmed, and then
one row per match as in `specEntries`. -/
def specChapters (text : List Char) : List (List Char × List Char) :=
  ("Preface".data, pystrip (text.take (nextStartOf text (chapterMatches text)))) ::
    specEntries text (chapterMatches text)

/-- Raw (untrimmed) segments of the text outside the match spans: the
part before the first listed match, between consecutive matches, and
after the last one. -/
def segsFrom (text : List Char) : List (Nat × Nat) → Nat → List (List Char)
  | [], off => [text.drop off]
  | (p, len) :: rest, off => (text.drop off).take (p - off) :: segsFrom text rest (p + len)

/-- The matched title-delimiter spans themselves. -/
def delimSpans (text : List Char) (ms : List (Nat × Nat)) : List (List Char) :=
  ms.map (fun pl => (text.drop pl.1).take pl.2)

/-- Interleave segments with delimiter spans:
`s0 ++ d1 ++ s1 ++ d2 ++ ... `. -/
def interleave : List (List Char) → List (List Char) → List Char
  | s :: ss, d :: ds => s ++ d ++ interleave ss ds
  | s :: _, [] => s
  | [], _ => []

/-- Python `glob(f"*.{extension}")` membership test on a directory
listing: the name does not start with a dot (glob skips hidden files)
and ends with `.` followed by the extension (`*` matches any sequence,
including the empty one). -/
def matchesExt (ext fn : List Char) : Bool :=
  decide (fn.head? ≠ some '.') && ('.' :: ext).isSuffixOf fn

/-- The files of the working directory matched by `glob(f"*.{ext}")`. -/
def globExt (ext : List Char) (files : List (List Char)) : List (List Char) :=
  files.filter (fun fn => matchesExt ext fn)

/-- The fixed extension preference order of `find_cover_image`. -/
def coverExts : List (List Char) := ["jpg".data, "png".data, "jpeg".data]

/-- The loop of `find_cover_image`: for each extension in order, if the
glob finds exactly one file, return it (`found_files[0]`); otherwise
continue; falling off the loop raises `FileNotFoundError` (`none`). -/
def findCoverAux (files : List (List Char)) : List (List Char) → Option (List Char)
  | [] => none
  | e :: es =>
    if (globExt e files).length = 1 then (globExt e files).head?
    else findCoverAux files es

/-- The function `find_cover_image()` of the source, over the working
directory listing. -/
def find_cover_image (files : List (List Char)) : Option (List Char) :=
  findCoverAux files coverExts

/-- Modelled from the spec wording of cover discovery: the first
extension whose glob has exactly one match wins; `none` when no
extension yields exactly one match. -/
def coverSpec (files : List (List Char)) : Option (List Char) :=
  match coverExts.find? (fun e => (globExt e files).length == 1) with
  | some e => (globExt e files).head?
  | none => none

/-- Lexicographic (code point) comparison used by Python `sorted` on
strings. -/
def strLe (a b : List Char) : Bool := decide (a ≤ b)

/-- Python `sorted(...)` on a list of filenames. -/
def sortFiles (files : List (List Char)) : List (List Char) :=
  files.mergeSort strLe

/-- A page in the reading order (spine) of the book: a front-matter
image page (`front_img_{i}.xhtml` showing one image) or a chapter page
(`chap_{i:02}.xhtml` from `split_into_chapters`, the preface first). -/
inductive SpineItem where
  | front (idx : Nat) (img : List Char)
  | page (idx : Nat) (title : List Char)
deriving DecidableEq

/-- The loop of `add_front_image`: for `i, img` in
`enumerate(front_image_files, start=1)`, `book.spine.insert(i-1, page)`
inserts each new front page at the index just past the previous one. -/
def addFrontAux : List SpineItem → Nat → List (List Char) → List SpineItem
  | sp, _, [] => sp
  | sp, i, f :: fs => addFrontAux (sp.insertIdx (i - 1) (.front i f)) (i + 1) fs

/-- The chapter loop of `main`: for `i, (title, body)` in
`enumerate(chapters, start=1)`, `book.spine.append(c)`. -/
def addChaptersAux : List SpineItem → Nat → List (List Char × List Char) → List SpineItem
  | sp, _, [] => sp
  | sp, i, c :: cs => addChaptersAux (sp ++ [.page i c.1]) (i + 1) cs

/-- Pair each element with its 1-based (or `i`-based) position, as
Python `enumerate(xs, start=i)` does. -/
def withIdx {α : Type} (i : Nat) : List α → List (Nat × α)
  | [] => []
  | a :: as => (i, a) :: withIdx (i + 1) as

/-- The spine built by `main`: `EpubBook()` starts with an empty spine,
`add_front_image` inserts the front pages (from the sorted front-image
directory listing), then the chapter loop appends one page per chapter.
`set_cover` does not touch the spine. -/
def mainSpine (front_files : List (List Char)) (text : List Char) : List SpineItem :=
  addChaptersAux (addFrontAux [] 1 (sortFiles front_files)) 1 (split_into_chapters text)

/-- Abstract filesystem state seen by one run of `main`: the working
directory listing, the two image directory listings, and the contents
of readable files. -/
structure Dir where
  cwd : List (List Char)
  frontDir : List (List Char)
  imageDir : List (List Char)
  contents : List Char → List Char

/-- Observable filesystem effects of a run (reads and writes of files;
directory listings are not modelled as effects). -/
inductive Effect where
  | read (name : List Char)
  | write (name : List Char)
deriving DecidableEq

/-- The two abort causes modelled for `main`: `glob('*.txt')[0]` raising
`IndexError` when no text file exists, and `find_cover_image` raising
`FileNotFoundError`. -/
inductive RunError where
  | noTxtFile
  | coverNotFound
deriving DecidableEq

def isWriteEff : Effect → Bool
  | .write _ => true
  | .read _ => false

/-- Membership test of `glob('*.txt')`. -/
def isTxt (fn : List Char) : Bool := matchesExt "txt".data fn

/-- Straight-line effect model of `main()`, in statement order:
`glob('*.txt')[0]`; `find_cover_image()`; `add_front_image` (reads each
front image, sorted); read the text file; list and sort the placeholder
image directory; substitute placeholders; read each placeholder image;
read the cover; build chapters and spine in memory; finally
`write_epub(txt_file[:-4] + ".epub", ...)` — the only write, and the
last operation.  Failures happen before any effect. -/
def mainRun (d : Dir) : List Effect × Except RunError Unit :=
  match (d.cwd.filter isTxt).head? with
  | none => ([], .error .noTxtFile)
  | some txt =>
    match find_cover_image d.cwd with
    | none => ([], .error .coverNotFound)
    | some cover =>
      ((sortFiles d.frontDir).map Effect.read ++ [Effect.read txt] ++
        (sortFiles d.imageDir).map Effect.read ++ [Effect.read cover] ++
        [Effect.write (txt.take (txt.length - 4) ++ ".epub".data)], .ok ())

/-! Basic facts about the placeholder matcher. -/

theorem markerTail_head_ne {c : Char} (hc : c ≠ '插') : ∀ l, markerTail (c :: l) = none
  | [] => rfl
  | [_] => rfl
  | _ :: _ :: _ => by simp [markerTail, hc]

theorem markerAt_cons_ne {c : Char} (hc : c ≠ '\n') (t : List Char) :
    markerAt (c :: t) = none := by
  simp [markerAt, hc]

theorem markerTail_shape {l : List Char} {k : Nat} (h : markerTail l = some k) :
    (k = 3 ∧ ∃ r, l = '插' :: '圖' :: '\n' :: r) ∨
    (k = 4 ∧ ∃ r, l = '插' :: '圖' :: '）' :: '\n' :: r) := by
  match l with
  | [] => exact absurd h (by simp [markerTail])
  | [_] => exact absurd h (by simp [markerTail])
  | [_, _] => exact absurd h (by simp [markerTail])
  | a :: b :: c :: rest =>
    simp only [markerTail] at h
    split_ifs at h with hab hc hnl
    · obtain ⟨rfl, rfl⟩ := hab
      subst hc
      match rest with
      | [] => exact absurd h (by simp)
      | d :: r =>
        have h2 : (if d = '\n' then some 4 else none) = some k := h
        split_ifs at h2 with hd
        subst hd
        refine Or.inr ⟨?_, r, rfl⟩
        injection h2 with h'
        omega
    · obtain ⟨rfl, rfl⟩ := hab
      subst hnl
      refine Or.inl ⟨?_, rest, rfl⟩
      injection h with h'
      omega

theorem markerAt_shape {s : List Char} {len : Nat} (h : markerAt s = some len) :
    ∃ mid, s = ('\n' :: mid) ++ '\n' :: s.drop len ∧ len = mid.length + 2 ∧ '\n' ∉ mid ∧
      (mid = ['插', '圖'] ∨ mid = ['插', '圖', '）'] ∨
       mid = ['（', '插', '圖'] ∨ mid = ['（', '插', '圖', '）']) := by
  match s with
  | [] => exact absurd h (by simp [markerAt])
  | a :: rest =>
    by_cases ha : a = '\n'
    case neg => rw [markerAt_cons_ne ha] at h; exact absurd h (by simp)
    subst ha
    match rest with
    | [] => exact absurd h (by simp [markerAt])
    | b :: rest2 =>
      by_cases hb : b = '（'
      · subst hb
        have h' : (markerTail rest2).map (· + 2) = some len := by
          simpa [markerAt] using h
        cases hmt : markerTail rest2 with
        | none => rw [hmt] at h'; exact absurd h' (by simp)
        | some k =>
          rw [hmt] at h'
          have hlen : k + 2 = len := by simpa using h'
          rcases markerTail_shape hmt with ⟨rfl, r, rfl⟩ | ⟨rfl, r, rfl⟩
          · subst hlen
            exact ⟨['（', '插', '圖'], by simp, by simp, by decide, by simp⟩
          · subst hlen
            exact ⟨['（', '插', '圖', '）'], by simp, by simp, by decide, by simp⟩
      · have h' : (markerTail (b :: rest2)).map (· + 1) = some len := by
          simpa [markerAt, hb] using h
        cases hmt : markerTail (b :: rest2) with
        | none => rw [hmt] at h'; exact absurd h' (by simp)
        | some k =>
          rw [hmt] at h'
          have hlen : k + 1 = len := by simpa using h'
          rcases markerTail_shape hmt with ⟨rfl, r, hr⟩ | ⟨rfl, r, hr⟩
          · obtain ⟨rfl, rfl⟩ : b = '插' ∧ rest2 = '圖' :: '\n' :: r := by
              injection hr with h1 h2
              exact ⟨h1, h2⟩
            subst hlen
            exact ⟨['插', '圖'], by simp, by simp, by decide, by simp⟩
          · obtain ⟨rfl, rfl⟩ : b = '插' ∧ rest2 = '圖' :: '）' :: '\n' :: r := by
              injection hr with h1 h2
              exact ⟨h1, h2⟩
            subst hlen
            exact ⟨['插', '圖', '）'], by simp, by simp, by decide, by simp⟩

theorem markerTail_junction : ∀ (B u v : List Char),
    markerTail (B ++ '\n' :: u) = markerTail (B ++ '\n' :: v)
  | [], u, v => by
    rcases u with _ | ⟨u1, _ | ⟨u2, u'⟩⟩ <;> rcases v with _ | ⟨v1, _ | ⟨v2, v'⟩⟩ <;>
      simp [markerTail]
  | [b1], u, v => by
    rcases u with _ | ⟨u1, u'⟩ <;> rcases v with _ | ⟨v1, v'⟩ <;> simp [markerTail]
  | [b1, b2], u, v => by simp [markerTail]
  | [b1, b2, b3], u, v => by simp [markerTail]
  | _ :: _ :: _ :: _ :: _, u, v => by simp [markerTail]

theorem markerAt_junction (a : Char) (A u v : List Char) :
    markerAt ((a :: A) ++ '\n' :: u) = markerAt ((a :: A) ++ '\n' :: v) := by
  simp only [List.cons_append]
  by_cases ha : a = '\n'
  · subst ha
    rcases A with _ | ⟨b, A'⟩
    · have hj := markerTail_junction [] u v
      simp only [List.nil_append] at hj ⊢
      simp [markerAt, hj]
    · simp only [List.cons_append]
      by_cases hb : b = '（'
      · subst hb
        have hj := markerTail_junction A' u v
        simp [markerAt, hj]
      · have hj := markerTail_junction (b :: A') u v
        simp only [List.cons_append] at hj
        simp [markerAt, hb, hj]
  · rw [markerAt_cons_ne ha, markerAt_cons_ne ha]

/-! Structure of the image tag, and how replacement interacts with the
marker count. -/

theorem imgTag_eq (fn : List Char) : imgTag fn = '\n' :: (tagMid fn ++ ['\n']) := by
  unfold imgTag tagMid
  rw [show ("\n<img src=\"images/".data : List Char) = '\n' :: "<img src=\"images/".data
      from rfl,
    show ("\"/>\n".data : List Char) = "\"/>".data ++ ['\n'] from rfl]
  simp [List.append_assoc]

theorem tagMid_head (fn : List Char) :
    tagMid fn =
      '<' :: ("img src=\"images/".data ++ fn ++ "\" alt=\"".data ++ fn ++ "\"/>".data) := by
  unfold tagMid
  rw [show ("<img src=\"images/".data : List Char) = '<' :: "img src=\"images/".data from rfl]
  simp [List.append_assoc]

theorem tagMid_nonl {fn : List Char} (h : '\n' ∉ fn) : '\n' ∉ tagMid fn := by
  unfold tagMid
  intro hm
  simp only [List.mem_append] at hm
  rcases hm with (((hm | hm) | hm) | hm) | hm
  · exact absurd hm (by decide)
  · exact h hm
  · exact absurd hm (by decide)
  · exact h hm
  · exact absurd hm (by decide)

theorem markerAt_tagMid (fn x : List Char) : markerAt ('\n' :: (tagMid fn ++ x)) = none := by
  rw [tagMid_head]
  simp only [List.cons_append]
  simp [markerAt, markerTail_head_ne (by decide : ('<' : Char) ≠ '插')]

theorem markerCount_cons (c : Char) (t : List Char) :
    markerCount (c :: t) = (if (markerAt (c :: t)).isSome then 1 else 0) + markerCount t :=
  rfl

theorem markerCount_append_nonl {l : List Char} (h : '\n' ∉ l) (y : List Char) :
    markerCount (l ++ y) = markerCount y := by
  induction l with
  | nil => simp
  | cons c l' ih =>
    have h1 : c ≠ '\n' := fun e => h (e ▸ List.mem_cons_self c l')
    have h2 : '\n' ∉ l' := fun e => h (List.mem_cons_of_mem c e)
    rw [List.cons_append, markerCount_cons, markerAt_cons_ne h1, ih h2]
    simp

theorem markerCount_at {s : List Char} {len : Nat} (h : markerAt s = some len) :
    markerCount s = markerCount ('\n' :: s.drop len) + 1 := by
  obtain ⟨mid, hs, hlen, hnl, _⟩ := markerAt_shape h
  calc markerCount s = markerCount (('\n' :: mid) ++ '\n' :: s.drop len) := by rw [← hs]
    _ = (if (markerAt (('\n' :: mid) ++ '\n' :: s.drop len)).isSome then 1 else 0) +
          markerCount (mid ++ '\n' :: s.drop len) := by
        rw [List.cons_append, markerCount_cons]
    _ = 1 + markerCount ('\n' :: s.drop len) := by
        rw [markerCount_append_nonl hnl, ← hs, h]
        rfl
    _ = markerCount ('\n' :: s.drop len) + 1 := Nat.add_comm 1 _

theorem markerCount_imgTag {fn : List Char} (h : '\n' ∉ fn) (rest : List Char) :
    markerCount (imgTag fn ++ rest) = markerCount ('\n' :: rest) := by
  rw [imgTag_eq]
  have he : ('\n' :: (tagMid fn ++ ['\n'])) ++ rest = '\n' :: (tagMid fn ++ '\n' :: rest) := by
    simp
  rw [he, markerCount_cons, markerAt_tagMid, markerCount_append_nonl (tagMid_nonl h)]
  simp

/-! Decomposition of a single substitution step, and the counting
lemmas for the substitution loop. -/

theorem subnOnce_decomp {tag s s' : List Char} (h : subnOnce tag s = some s') :
    ∃ A mid B, s = A ++ ('\n' :: mid) ++ '\n' :: B ∧
      s' = A ++ tag ++ B ∧
      markerAt (('\n' :: mid) ++ '\n' :: B) = some (mid.length + 2) ∧
      '\n' ∉ mid ∧
      (∀ i < A.length, markerAt (A.drop i ++ ('\n' :: mid) ++ '\n' :: B) = none) := by
  induction s generalizing s' with
  | nil => exact absurd h (by simp [subnOnce])
  | cons c rest ih =>
    rw [subnOnce] at h
    cases hma : markerAt (c :: rest) with
    | some len =>
      rw [hma] at h
      simp only [Option.some.injEq] at h
      obtain ⟨mid, hs, hlen, hnl, _⟩ := markerAt_shape hma
      refine ⟨[], mid, (c :: rest).drop len, ?_, ?_, ?_, hnl, ?_⟩
      · simpa using hs
      · simp [← h]
      · rw [← hs, hma, hlen]
      · intro i hi
        exact absurd hi (by simp)
    | none =>
      rw [hma] at h
      cases hr : subnOnce tag rest with
      | none => rw [hr] at h; exact absurd h (by simp)
      | some r' =>
        rw [hr] at h
        simp only [Option.map_some', Option.some.injEq] at h
        obtain ⟨A, mid, B, h1, h2, h3, h4, h5⟩ := ih hr
        refine ⟨c :: A, mid, B, by simp [h1], by simp [h2, ← h], h3, h4, ?_⟩
        intro i hi
        match i with
        | 0 =>
          have he : (c :: A).drop 0 ++ ('\n' :: mid) ++ '\n' :: B = c :: rest := by
            simp [h1]
          rw [he]
          exact hma
        | j + 1 =>
          have he : ((c :: A).drop (j + 1)) = A.drop j := rfl
          rw [he]
          exact h5 j (by simpa using hi)

theorem subnOnce_markerCount {fn s s' : List Char} (hfn : '\n' ∉ fn)
    (h : subnOnce (imgTag fn) s = some s') :
    markerCount s = markerCount s' + 1 := by
  induction s generalizing s' with
  | nil => exact absurd h (by simp [subnOnce])
  | cons c rest ih =>
    rw [subnOnce] at h
    cases hma : markerAt (c :: rest) with
    | some len =>
      rw [hma] at h
      simp only [Option.some.injEq] at h
      rw [markerCount_at hma, ← h, markerCount_imgTag hfn]
    | none =>
      rw [hma] at h
      cases hr : subnOnce (imgTag fn) rest with
      | none => rw [hr] at h; exact absurd h (by simp)
      | some r' =>
        rw [hr] at h
        simp only [Option.map_some', Option.some.injEq] at h
        have hnone : markerAt (c :: r') = none := by
          obtain ⟨A, mid, B, h1, h2, _, _, _⟩ := subnOnce_decomp hr
          have e1 : c :: r' = (c :: A) ++ '\n' :: (tagMid fn ++ '\n' :: B) := by
            rw [h2, imgTag_eq]
            simp
          have e2 : c :: rest = (c :: A) ++ '\n' :: (mid ++ '\n' :: B) := by
            rw [h1]
            simp
          rw [e1, markerAt_junction c A _ (mid ++ '\n' :: B), ← e2]
          exact hma
        rw [← h, markerCount_cons, markerCount_cons, hma, hnone, ih hr]
        simp [Nat.add_assoc]

theorem subnOnce_eq_none {tag s : List Char} : subnOnce tag s = none ↔ markerCount s = 0 := by
  induction s with
  | nil => simp [subnOnce, markerCount]
  | cons c rest ih =>
    rw [subnOnce, markerCount_cons]
    cases hma : markerAt (c :: rest) with
    | some len => simp
    | none => simpa using ih

theorem numReplaced_eq_min {fns : List (List Char)} (hf : ∀ fn ∈ fns, '\n' ∉ fn) :
    ∀ content, numReplaced content fns = min (markerCount content) fns.length := by
  induction fns with
  | nil => intro content; simp [numReplaced]
  | cons fn fns ih =>
    intro content
    cases hr : subnOnce (imgTag fn) content with
    | none =>
      have h0 : markerCount content = 0 := subnOnce_eq_none.mp hr
      simp [numReplaced, hr, h0]
    | some c2 =>
      have hfn : '\n' ∉ fn := hf fn (by simp)
      have hd := subnOnce_markerCount hfn hr
      have ih' := ih (fun g hg => hf g (by simp [hg])) c2
      simp only [numReplaced, hr, List.length_cons, ih', hd]
      omega

theorem markerCount_replace {fns : List (List Char)} (hf : ∀ fn ∈ fns, '\n' ∉ fn) :
    ∀ content, markerCount (replace_placeholders_with_images content fns) =
      markerCount content - numReplaced content fns := by
  induction fns with
  | nil => intro content; simp [replace_placeholders_with_images, numReplaced]
  | cons fn fns ih =>
    intro content
    cases hr : subnOnce (imgTag fn) content with
    | none => simp [replace_placeholders_with_images, numReplaced, hr]
    | some c2 =>
      have hfn : '\n' ∉ fn := hf fn (by simp)
      have hd := subnOnce_markerCount hfn hr
      have ih' := ih (fun g hg => hf g (by simp [hg])) c2
      simp only [replace_placeholders_with_images, numReplaced, hr, ih']
      omega

theorem usedImages_eq_take : ∀ (content : List Char) (fns : List (List Char)),
    usedImages content fns = fns.take (numReplaced content fns) := by
  intro content fns
  induction fns generalizing content with
  | nil => simp [usedImages, numReplaced]
  | cons fn fns ih =>
    cases hr : subnOnce (imgTag fn) content with
    | none => simp [usedImages, numReplaced, hr]
    | some c2 => simp [usedImages, numReplaced, hr, ih c2]

/-! Locality of the substitution loop: replacements never touch a
prefix in which no marker match can start. -/

theorem subnOnce_loc {P : List Char}
    (hP : ∀ i < P.length, ∀ u, markerAt (P.drop i ++ '\n' :: u) = none)
    (tag B : List Char) :
    subnOnce tag (P ++ '\n' :: B) = (subnOnce tag ('\n' :: B)).map (P ++ ·) := by
  induction P with
  | nil =>
    simp only [List.nil_append]
    cases subnOnce tag ('\n' :: B) <;> simp
  | cons p P' ih =>
    have h0 : markerAt (p :: (P' ++ '\n' :: B)) = none := by
      have := hP 0 (by simp) B
      simpa using this
    rw [List.cons_append, subnOnce, h0]
    have hP' : ∀ i < P'.length, ∀ u, markerAt (P'.drop i ++ '\n' :: u) = none := by
      intro i hi u
      have := hP (i + 1) (by simpa using Nat.succ_lt_succ hi) u
      simpa using this
    rw [ih hP']
    cases subnOnce tag ('\n' :: B) <;> simp

theorem subnOnce_head {tag s s' : List Char} (htag : tag.head? = some '\n')
    (hs : s.head? = some '\n') (h : subnOnce tag s = some s') : s'.head? = some '\n' := by
  induction s generalizing s' with
  | nil => exact absurd h (by simp [subnOnce])
  | cons c rest ih =>
    rw [subnOnce] at h
    cases hma : markerAt (c :: rest) with
    | some len =>
      rw [hma] at h
      simp only [Option.some.injEq] at h
      rw [← h, List.head?_append, htag]
      rfl
    | none =>
      rw [hma] at h
      cases hr : subnOnce tag rest with
      | none => rw [hr] at h; exact absurd h (by simp)
      | some r' =>
        rw [hr] at h
        simp only [Option.map_some', Option.some.injEq] at h
        rw [← h]
        simpa using hs

theorem replace_loc {P : List Char}
    (hP : ∀ i < P.length, ∀ u, markerAt (P.drop i ++ '\n' :: u) = none) :
    ∀ (fns : List (List Char)) (B : List Char),
      replace_placeholders_with_images (P ++ '\n' :: B) fns =
        P ++ replace_placeholders_with_images ('\n' :: B) fns ∧
      numReplaced (P ++ '\n' :: B) fns = numReplaced ('\n' :: B) fns := by
  intro fns
  induction fns with
  | nil => intro B; exact ⟨rfl, rfl⟩
  | cons fn fns ih =>
    intro B
    cases hr : subnOnce (imgTag fn) ('\n' :: B) with
    | none =>
      have hn : subnOnce (imgTag fn) (P ++ '\n' :: B) = none := by
        rw [subnOnce_loc hP, hr]
        rfl
      refine ⟨?_, ?_⟩ <;>
        simp [replace_placeholders_with_images, numReplaced, hn, hr]
    | some r2 =>
      have hPB : subnOnce (imgTag fn) (P ++ '\n' :: B) = some (P ++ r2) := by
        rw [subnOnce_loc hP, hr]
        rfl
      have hh : r2.head? = some '\n' := by
        have htag : (imgTag fn).head? = some '\n' := by rw [imgTag_eq]; rfl
        have hs0 : ('\n' :: B).head? = some '\n' := rfl
        exact subnOnce_head htag hs0 hr
      obtain ⟨B2, rfl⟩ : ∃ B2, r2 = '\n' :: B2 := by
        cases r2 with
        | nil => simp at hh
        | cons a t =>
          simp only [List.head?_cons, Option.some.injEq] at hh
          exact ⟨t, by rw [hh]⟩
      obtain ⟨e1, e2⟩ := ih B2
      constructor
      · simp only [replace_placeholders_with_images, hPB, hr]
        exact e1
      · simp only [numReplaced, hPB, hr, e2]

theorem imgTag_dropLast (fn : List Char) : (imgTag fn).dropLast = '\n' :: tagMid fn := by
  rw [imgTag_eq]
  have e : '\n' :: (tagMid fn ++ ['\n']) = ('\n' :: tagMid fn) ++ ['\n'] := by simp
  rw [e, List.dropLast_concat]

theorem decomp_clean {fn A mid B : List Char} (hfn : '\n' ∉ fn)
    (h5 : ∀ i < A.length, markerAt (A.drop i ++ ('\n' :: mid) ++ '\n' :: B) = none) :
    ∀ i < (A ++ '\n' :: tagMid fn).length, ∀ u,
      markerAt ((A ++ '\n' :: tagMid fn).drop i ++ '\n' :: u) = none := by
  have htm : '\n' ∉ tagMid fn := tagMid_nonl hfn
  intro i hi u
  rcases Nat.lt_or_ge i A.length with hiA | hiA
  · obtain ⟨a, A2, hA⟩ : ∃ a A2, A.drop i = a :: A2 := by
      cases hAd : A.drop i with
      | nil =>
        have : A.length - i = 0 := by
          simpa using congrArg List.length hAd
        omega
      | cons a A2 => exact ⟨a, A2, rfl⟩
    rw [List.drop_append_of_le_length (le_of_lt hiA)]
    have e : (A.drop i ++ '\n' :: tagMid fn) ++ '\n' :: u =
        (a :: A2) ++ '\n' :: (tagMid fn ++ '\n' :: u) := by
      rw [hA]
      simp
    rw [e, markerAt_junction a A2 _ (mid ++ '\n' :: B)]
    have e2 : (a :: A2) ++ '\n' :: (mid ++ '\n' :: B) =
        A.drop i ++ ('\n' :: mid) ++ '\n' :: B := by
      rw [hA]
      simp
    rw [e2]
    exact h5 i hiA
  · have hidrop : (A ++ '\n' :: tagMid fn).drop i =
        ('\n' :: tagMid fn).drop (i - A.length) := by
      rw [List.drop_append_eq_append_drop, List.drop_eq_nil_of_le hiA]
      rfl
    have hj : i - A.length < (tagMid fn).length + 1 := by
      have := hi
      simp only [List.length_append, List.length_cons] at this
      omega
    rw [hidrop]
    cases hjc : i - A.length with
    | zero =>
      have e : ('\n' :: tagMid fn).drop 0 ++ '\n' :: u =
          '\n' :: (tagMid fn ++ '\n' :: u) := by simp
      rw [e]
      exact markerAt_tagMid fn ('\n' :: u)
    | succ k =>
      have hk : k < (tagMid fn).length := by omega
      obtain ⟨c, t2, hc⟩ : ∃ c t2, (tagMid fn).drop k = c :: t2 := by
        cases hcd : (tagMid fn).drop k with
        | nil =>
          have : (tagMid fn).length - k = 0 := by
            simpa using congrArg List.length hcd
          omega
        | cons c t2 => exact ⟨c, t2, rfl⟩
      have hcm : c ∈ tagMid fn :=
        List.mem_of_mem_drop (hc ▸ List.mem_cons_self c t2)
      have hcne : c ≠ '\n' := fun e => htm (e ▸ hcm)
      have e : ('\n' :: tagMid fn).drop (k + 1) ++ '\n' :: u =
          c :: (t2 ++ '\n' :: u) := by
        simp only [List.drop_succ_cons, hc]
        rfl
      rw [e]
      exact markerAt_cons_ne hcne _

theorem replace_spans {fns : List (List Char)} (hf : ∀ fn ∈ fns, '\n' ∉ fn) :
    ∀ content, SpansRewrite content (fns.take (numReplaced content fns))
      (replace_placeholders_with_images content fns) := by
  induction fns with
  | nil =>
    intro content
    simpa [numReplaced, replace_placeholders_with_images] using SpansRewrite.done content
  | cons fn fns ih =>
    intro content
    cases hr : subnOnce (imgTag fn) content with
    | none =>
      simpa [replace_placeholders_with_images, numReplaced, hr] using
        SpansRewrite.done content
    | some c2 =>
      have hfn : '\n' ∉ fn := hf fn (by simp)
      obtain ⟨A, mid, B, h1, h2, h3, h4, h5⟩ := subnOnce_decomp hr
      have hP := decomp_clean hfn h5
      have hc2 : c2 = (A ++ '\n' :: tagMid fn) ++ '\n' :: B := by
        rw [h2, imgTag_eq]
        simp
      obtain ⟨e1, e2⟩ := replace_loc hP fns B
      have hrep : replace_placeholders_with_images content (fn :: fns) =
          (A ++ '\n' :: tagMid fn) ++ replace_placeholders_with_images ('\n' :: B) fns := by
        simp only [replace_placeholders_with_images, hr]
        rw [hc2, e1]
      have hnum : numReplaced content (fn :: fns) =
          numReplaced ('\n' :: B) fns + 1 := by
        simp only [numReplaced, hr]
        rw [hc2, e2]
      rw [hrep, hnum, h1, List.take_succ_cons]
      have hstep := SpansRewrite.step A ('\n' :: mid) B
        (replace_placeholders_with_images ('\n' :: B) fns) fn
        (fns.take (numReplaced ('\n' :: B) fns))
        (by simpa using h3)
        (ih (fun g hg => hf g (by simp [hg])) ('\n' :: B))
      rw [imgTag_dropLast] at hstep
      simpa using hstep

theorem markerCount_none_prefix : ∀ {A X : List Char},
    (∀ i < A.length, markerAt (A.drop i ++ X) = none) →
    markerCount (A ++ X) = markerCount X := by
  intro A
  induction A with
  | nil => intro X _; simp
  | cons a A2 ih =>
    intro X h
    have h0 : markerAt (a :: (A2 ++ X)) = none := by
      have := h 0 (by simp)
      simpa using this
    rw [List.cons_append, markerCount_cons, h0, ih]
    · simp
    · intro i hi
      have := h (i + 1) (by simpa using Nat.succ_lt_succ hi)
      simpa using this

theorem replace_head : ∀ (fns : List (List Char)) (B : List Char),
    ∃ B2, replace_placeholders_with_images ('\n' :: B) fns = '\n' :: B2 := by
  intro fns
  induction fns with
  | nil => intro B; exact ⟨B, rfl⟩
  | cons fn fns ih =>
    intro B
    cases hr : subnOnce (imgTag fn) ('\n' :: B) with
    | none => exact ⟨B, by simp [replace_placeholders_with_images, hr]⟩
    | some r2 =>
      have htag : (imgTag fn).head? = some '\n' := by rw [imgTag_eq]; rfl
      have hs0 : ('\n' :: B).head? = some '\n' := rfl
      have hh : r2.head? = some '\n' := subnOnce_head htag hs0 hr
      obtain ⟨B3, rfl⟩ : ∃ B3, r2 = '\n' :: B3 := by
        cases r2 with
        | nil => simp at hh
        | cons a t =>
          simp only [List.head?_cons, Option.some.injEq] at hh
          exact ⟨t, by rw [hh]⟩
      obtain ⟨B2, hB2⟩ := ih B3
      exact ⟨B2, by simp [replace_placeholders_with_images, hr, hB2]⟩

theorem replace_leftmost {fns : List (List Char)} (hf : ∀ fn ∈ fns, '\n' ∉ fn) :
    ∀ content, LeftmostRewrite content (fns.take (numReplaced content fns))
      (replace_placeholders_with_images content fns) := by
  induction fns with
  | nil =>
    intro content
    simpa [numReplaced, replace_placeholders_with_images] using
      LeftmostRewrite.done content
  | cons fn fns ih =>
    intro content
    cases hr : subnOnce (imgTag fn) content with
    | none =>
      simpa [replace_placeholders_with_images, numReplaced, hr] using
        LeftmostRewrite.done content
    | some c2 =>
      have hfn : '\n' ∉ fn := hf fn (by simp)
      obtain ⟨A, mid, B, h1, h2, h3, h4, h5⟩ := subnOnce_decomp hr
      have hP := decomp_clean hfn h5
      have hc2 : c2 = (A ++ '\n' :: tagMid fn) ++ '\n' :: B := by
        rw [h2, imgTag_eq]
        simp
      obtain ⟨e1, e2⟩ := replace_loc hP fns B
      have hrep : replace_placeholders_with_images content (fn :: fns) =
          (A ++ '\n' :: tagMid fn) ++ replace_placeholders_with_images ('\n' :: B) fns := by
        simp only [replace_placeholders_with_images, hr]
        rw [hc2, e1]
      have hnum : numReplaced content (fn :: fns) =
          numReplaced ('\n' :: B) fns + 1 := by
        simp only [numReplaced, hr]
        rw [hc2, e2]
      rw [hrep, hnum, h1, List.take_succ_cons]
      have hstep := LeftmostRewrite.step A ('\n' :: mid) B
        (replace_placeholders_with_images ('\n' :: B) fns) fn
        (fns.take (numReplaced ('\n' :: B) fns))
        (by simpa using h3)
        h5
        (ih (fun g hg => hf g (by simp [hg])) ('\n' :: B))
      rw [imgTag_dropLast] at hstep
      simpa using hstep

theorem replace_rest {fns : List (List Char)} (hf : ∀ fn ∈ fns, '\n' ∉ fn) :
    ∀ content, ∃ rest, rest <:+ content ∧
      rest <:+ replace_placeholders_with_images content fns ∧
      markerCount rest = markerCount content - numReplaced content fns ∧
      markerCount (replace_placeholders_with_images content fns) = markerCount rest := by
  induction fns with
  | nil =>
    intro content
    exact ⟨content, List.suffix_refl content, List.suffix_refl content,
      by simp [numReplaced], rfl⟩
  | cons fn fns ih =>
    intro content
    cases hr : subnOnce (imgTag fn) content with
    | none =>
      refine ⟨content, List.suffix_refl content, ?_, ?_, ?_⟩ <;>
        simp [replace_placeholders_with_images, numReplaced, hr, List.suffix_refl]
    | some c2 =>
      have hfn : '\n' ∉ fn := hf fn (by simp)
      obtain ⟨A, mid, B, h1, h2, h3, h4, h5⟩ := subnOnce_decomp hr
      have hP := decomp_clean hfn h5
      have hc2 : c2 = (A ++ '\n' :: tagMid fn) ++ '\n' :: B := by
        rw [h2, imgTag_eq]
        simp
      obtain ⟨e1, e2⟩ := replace_loc hP fns B
      have hrep : replace_placeholders_with_images content (fn :: fns) =
          (A ++ '\n' :: tagMid fn) ++ replace_placeholders_with_images ('\n' :: B) fns := by
        simp only [replace_placeholders_with_images, hr]
        rw [hc2, e1]
      have hnum : numReplaced content (fn :: fns) =
          numReplaced ('\n' :: B) fns + 1 := by
        simp only [numReplaced, hr]
        rw [hc2, e2]
      obtain ⟨D, hD1, hD2, hD3, hD4⟩ := ih (fun g hg => hf g (by simp [hg])) ('\n' :: B)
      obtain ⟨B2, hB2⟩ := replace_head fns B
      have hcount : markerCount content = markerCount ('\n' :: B) + 1 := by
        rw [h1]
        have hassoc : A ++ ('\n' :: mid) ++ '\n' :: B =
            A ++ (('\n' :: mid) ++ '\n' :: B) := by
          simp [List.append_assoc]
        rw [hassoc, markerCount_none_prefix, markerCount_at (by simpa using h3)]
        · congr 1
          have : (('\n' :: mid) ++ '\n' :: B).drop (mid.length + 2) = B := by
            rw [List.drop_append_eq_append_drop]
            simp
          rw [this]
        · intro i hi
          have := h5 i hi
          simpa [List.append_assoc] using this
      have hout : markerCount (replace_placeholders_with_images content (fn :: fns)) =
          markerCount (replace_placeholders_with_images ('\n' :: B) fns) := by
        rw [hrep, hB2, markerCount_none_prefix, ← hB2]
        intro i hi
        exact hP i hi B2
      refine ⟨D, ?_, ?_, ?_, ?_⟩
      · rw [h1]
        have : ('\n' :: B) <:+ A ++ ('\n' :: mid) ++ '\n' :: B :=
          List.suffix_append (A ++ ('\n' :: mid)) ('\n' :: B)
        exact hD1.trans this
      · rw [hrep]
        exact hD2.trans (List.suffix_append _ _)
      · rw [hnum, hcount]
        omega
      · rw [hout]
        exact hD4

/-- C1: for every text with K placeholder markers (`markerCount`, the
number of positions where `PLACEHOLDER_REGEX` matches) and every list of
M image filenames, `replace_placeholders_with_images` performs exactly
`min K M` substitutions, processing markers strictly in left-to-right
document order: `LeftmostRewrite` states that each substitution
replaces the leftmost marker of the remaining text (no marker match
starts before the replaced span) and continues strictly to its right,
pairing the i-th marker with the i-th image — so images are consumed in
ascending list order, none twice, and none skipped.  When `M < K` the
trailing `K - M` markers remain in the output as literal text: input
and output share a trailing suffix `rest`, preserved verbatim, that
carries `K - min K M` markers — all the markers the output has.  The
filename hypothesis — no newline (which would let a tag introduce new
markers) and no backslash (which `re.subn` would treat as a template
escape) — delimits the inputs on which the literal-splice embedding of
`subn` is faithful. -/
theorem claim_C1 (content : List Char) (image_files : List (List Char))
    (hfiles : ∀ fn ∈ image_files, '\n' ∉ fn ∧ '\\' ∉ fn) :
    numReplaced content image_files = min (markerCount content) image_files.length ∧
    usedImages content image_files =
      image_files.take (min (markerCount content) image_files.length) ∧
    markerCount (replace_placeholders_with_images content image_files) =
      markerCount content - min (markerCount content) image_files.length ∧
    LeftmostRewrite content
      (image_files.take (min (markerCount content) image_files.length))
      (replace_placeholders_with_images content image_files) ∧
    ∃ rest, rest <:+ content ∧
      rest <:+ replace_placeholders_with_images content image_files ∧
      markerCount rest =
        markerCount content - min (markerCount content) image_files.length ∧
      markerCount (replace_placeholders_with_images content image_files) =
        markerCount rest := by
  have hnl : ∀ fn ∈ image_files, '\n' ∉ fn := fun fn h => (hfiles fn h).1
  have h1 := numReplaced_eq_min hnl content
  refine ⟨h1, ?_, ?_, ?_, ?_⟩
  · rw [usedImages_eq_take, h1]
  · rw [markerCount_replace hnl, h1]
  · have := replace_leftmost hnl content
    rwa [h1] at this
  · obtain ⟨rest, hr1, hr2, hr3, hr4⟩ := replace_rest hnl content
    exact ⟨rest, hr1, hr2, by rwa [h1] at hr3, hr4⟩

/-- Witness for C1 at a concrete input: two markers, one image; the
replacement is the leftmost marker and the second marker survives in
the common trailing suffix. -/
theorem claim_C1_witness :
    (∀ fn ∈ (["a.jpg".data] : List (List Char)), '\n' ∉ fn ∧ '\\' ∉ fn) ∧
    numReplaced "x\n插圖\n插圖\ny".data ["a.jpg".data] = 1 ∧
    usedImages "x\n插圖\n插圖\ny".data ["a.jpg".data] = ["a.jpg".data] ∧
    markerCount
      (replace_placeholders_with_images "x\n插圖\n插圖\ny".data ["a.jpg".data]) = 1 ∧
    LeftmostRewrite "x\n插圖\n插圖\ny".data ["a.jpg".data]
      (replace_placeholders_with_images "x\n插圖\n插圖\ny".data ["a.jpg".data]) ∧
    ∃ rest, rest <:+ "x\n插圖\n插圖\ny".data ∧
      rest <:+ replace_placeholders_with_images "x\n插圖\n插圖\ny".data ["a.jpg".data] ∧
      markerCount rest = 1 ∧
      markerCount
        (replace_placeholders_with_images "x\n插圖\n插圖\ny".data ["a.jpg".data]) =
        markerCount rest := by
  have h := claim_C1 "x\n插圖\n插圖\ny".data ["a.jpg".data] (by decide)
  refine ⟨by decide, h.1.trans (by decide), h.2.1.trans (by decide),
    h.2.2.1.trans (by decide), ?_, ?_⟩
  · have h4 := h.2.2.2.1
    have e : (["a.jpg".data] : List (List Char)).take
        (min (markerCount "x\n插圖\n插圖\ny".data)
          (["a.jpg".data] : List (List Char)).length) = ["a.jpg".data] := by decide
    rwa [e] at h4
  · obtain ⟨rest, hr1, hr2, hr3, hr4⟩ := h.2.2.2.2
    refine ⟨rest, hr1, hr2, ?_, hr4⟩
    rw [hr3]
    decide

/-- C9: frame property of substitution.  The output of
`replace_placeholders_with_images` is the input with exactly the
processed marker occurrences (each a whole marker line together with its
matched flanking newlines) replaced by the image tag; every character
outside the replaced spans is carried over verbatim
(`SpansRewrite`), and each tag is a single line re-inserting the
flanking newlines: it starts with a newline, ends with a newline, and
contains no interior newline.  Filename hypothesis as in C1. -/
theorem claim_C9 (content : List Char) (image_files : List (List Char))
    (hfiles : ∀ fn ∈ image_files, '\n' ∉ fn ∧ '\\' ∉ fn) :
    SpansRewrite content
      (image_files.take (numReplaced content image_files))
      (replace_placeholders_with_images content image_files) ∧
    ∀ fn ∈ image_files, (imgTag fn).head? = some '\n' ∧
      (imgTag fn).getLast? = some '\n' ∧ '\n' ∉ (imgTag fn).dropLast.drop 1 := by
  have hnl : ∀ fn ∈ image_files, '\n' ∉ fn := fun fn h => (hfiles fn h).1
  refine ⟨replace_spans hnl content, ?_⟩
  intro fn hfn
  refine ⟨by rw [imgTag_eq]; rfl, ?_, ?_⟩
  · rw [imgTag_eq]
    have e : '\n' :: (tagMid fn ++ ['\n']) = ('\n' :: tagMid fn) ++ ['\n'] := by simp
    rw [e, List.getLast?_concat]
  · rw [imgTag_dropLast]
    simpa using tagMid_nonl (hnl fn hfn)

/-- Witness for C9 at a concrete input: one marker, one image. -/
theorem claim_C9_witness :
    (∀ fn ∈ (["a".data] : List (List Char)), '\n' ∉ fn ∧ '\\' ∉ fn) ∧
    SpansRewrite "x\n插圖\ny".data ["a".data]
      (replace_placeholders_with_images "x\n插圖\ny".data ["a".data]) := by
  constructor
  · decide
  · have h := (claim_C9 "x\n插圖\ny".data ["a".data] (by decide)).1
    have e : (["a".data] : List (List Char)).take
        (numReplaced "x\n插圖\ny".data ["a".data]) = ["a".data] := by decide
    rwa [e] at h

/-- C6 counterexample: the claim says a marker token on a line directly
adjacent to non-blank lines (not flanked by blank lines) is not
replaced; the code replaces it, because `PLACEHOLDER_REGEX` only
requires single flanking newlines, not blank lines.  In
`"abc\n插圖\ndef"` the marker line is adjacent to the non-blank lines
`abc` and `def`, yet substitution changes the text. -/
theorem claim_C6_cex :
    replace_placeholders_with_images "abc\n插圖\ndef".data ["x.jpg".data] ≠
      "abc\n插圖\ndef".data := by decide

/-- C6 (amended): substitution replaces exactly the occurrences of the
marker token `插圖`, optionally preceded by `（` and/or followed by
`）`, occupying a whole line delimited by a single newline on each side
(the flanking newlines are part of the match); isolation by blank lines
is not required, and a marker lacking either flanking newline (for
instance at the very start or end of the text) is not matched. -/
theorem claim_C6_amended (s : List Char) :
    (markerAt s).isSome ↔
      ((∃ r, s = '\n' :: '插' :: '圖' :: '\n' :: r) ∨
       (∃ r, s = '\n' :: '插' :: '圖' :: '）' :: '\n' :: r) ∨
       (∃ r, s = '\n' :: '（' :: '插' :: '圖' :: '\n' :: r) ∨
       (∃ r, s = '\n' :: '（' :: '插' :: '圖' :: '）' :: '\n' :: r)) := by
  constructor
  · intro h
    obtain ⟨len, hl⟩ := Option.isSome_iff_exists.mp h
    obtain ⟨mid, hs, hlen, hnl, hshape⟩ := markerAt_shape hl
    rcases hshape with rfl | rfl | rfl | rfl
    · refine Or.inl ⟨s.drop len, ?_⟩
      conv_lhs => rw [hs]
      rfl
    · refine Or.inr (Or.inl ⟨s.drop len, ?_⟩)
      conv_lhs => rw [hs]
      rfl
    · refine Or.inr (Or.inr (Or.inl ⟨s.drop len, ?_⟩))
      conv_lhs => rw [hs]
      rfl
    · refine Or.inr (Or.inr (Or.inr ⟨s.drop len, ?_⟩))
      conv_lhs => rw [hs]
      rfl
  · intro h
    rcases h with ⟨r, rfl⟩ | ⟨r, rfl⟩ | ⟨r, rfl⟩ | ⟨r, rfl⟩ <;>
      simp [markerAt, markerTail]

/-! Basic facts about the chapter matcher and `finditer`. -/

theorem chapterAt_nil : chapterAt [] = none := rfl

theorem lazyToBlank_le : ∀ {l : List Char} {k : Nat}, lazyToBlank l = some k → k ≤ l.length := by
  intro l
  induction l with
  | nil => intro k h; exact absurd h (by simp [lazyToBlank])
  | cons a rest ih =>
    intro k h
    unfold lazyToBlank at h
    split_ifs at h with ha
    · match rest, h with
      | b :: t, h =>
        have h2 : (if b = '\n' then some 2 else none) = some k := h
        split_ifs at h2 with hb
        injection h2 with h'
        simp [← h']
    · cases hr : lazyToBlank rest with
      | none => rw [hr] at h; exact absurd h (by simp)
      | some k2 =>
        rw [hr] at h
        injection h with h'
        have := ih hr
        simp [← h']
        omega

theorem chapterBody_le : ∀ {l : List Char} {k : Nat}, chapterBody l = some k → k ≤ l.length := by
  intro l
  induction l with
  | nil => intro k h; exact absurd h (by simp [chapterBody])
  | cons a rest ih =>
    intro k h
    unfold chapterBody at h
    split_ifs at h with ha ht
    · match rest, h with
      | b :: v, h =>
        have h2 : (if b = '　' then
            (match lazyToBlank v with
             | some m => some (m + 2)
             | none => (chapterBody (b :: v)).map (· + 1))
            else (chapterBody (b :: v)).map (· + 1)) = some k := h
        split_ifs at h2 with hb
        · cases hlb : lazyToBlank v with
          | none =>
            rw [hlb] at h2
            cases hr : chapterBody (b :: v) with
            | none => rw [hr] at h2; exact absurd h2 (by simp)
            | some k2 =>
              rw [hr] at h2
              simp only [Option.map_some', Option.some.injEq] at h2
              have hlen := ih hr
              simp only [List.length_cons] at hlen ⊢
              omega
          | some m =>
            rw [hlb] at h2
            injection h2 with h'
            have := lazyToBlank_le hlb
            simp [← h']
            omega
        · cases hr : chapterBody (b :: v) with
          | none => rw [hr] at h2; exact absurd h2 (by simp)
          | some k2 =>
            rw [hr] at h2
            simp only [Option.map_some', Option.some.injEq] at h2
            have hlen := ih hr
            simp only [List.length_cons] at hlen ⊢
            omega
    · cases hr : chapterBody rest with
      | none => rw [hr] at h; exact absurd h (by simp)
      | some k2 =>
        rw [hr] at h
        simp only [Option.map_some', Option.some.injEq] at h
        have hlen := ih hr
        simp only [List.length_cons] at hlen ⊢
        omega

theorem chapterBody_pos : ∀ {l : List Char} {k : Nat}, chapterBody l = some k → 1 ≤ k := by
  intro l
  induction l with
  | nil => intro k h; exact absurd h (by simp [chapterBody])
  | cons a rest ih =>
    intro k h
    unfold chapterBody at h
    split_ifs at h with ha ht
    · match rest, h with
      | b :: v, h =>
        have h2 : (if b = '　' then
            (match lazyToBlank v with
             | some m => some (m + 2)
             | none => (chapterBody (b :: v)).map (· + 1))
            else (chapterBody (b :: v)).map (· + 1)) = some k := h
        split_ifs at h2 with hb
        · cases hlb : lazyToBlank v with
          | none =>
            rw [hlb] at h2
            cases hr : chapterBody (b :: v) with
            | none => rw [hr] at h2; exact absurd h2 (by simp)
            | some k2 =>
              rw [hr] at h2
              simp only [Option.map_some', Option.some.injEq] at h2
              omega
          | some m =>
            rw [hlb] at h2
            injection h2 with h'
            omega
        · cases hr : chapterBody (b :: v) with
          | none => rw [hr] at h2; exact absurd h2 (by simp)
          | some k2 =>
            rw [hr] at h2
            simp only [Option.map_some', Option.some.injEq] at h2
            omega
    · cases hr : chapterBody rest with
      | none => rw [hr] at h; exact absurd h (by simp)
      | some k2 =>
        rw [hr] at h
        simp only [Option.map_some', Option.some.injEq] at h
        omega

theorem chapterAt_le {s : List Char} {len : Nat} (h : chapterAt s = some len) :
    len ≤ s.length ∧ 2 ≤ len := by
  match s with
  | [] => exact absurd h (by simp [chapterAt])
  | [_] => exact absurd h (by simp [chapterAt])
  | a :: b :: rest =>
    rw [chapterAt] at h
    split_ifs at h with hab
    cases hcb : chapterBody rest with
    | none => rw [hcb] at h; exact absurd h (by simp)
    | some k =>
      rw [hcb] at h
      injection h with h'
      have := chapterBody_le hcb
      simp [← h']
      omega

theorem findChapter_some : ∀ {s : List Char} {p len : Nat},
    findChapter s = some (p, len) →
    chapterAt (s.drop p) = some len ∧ (∀ j < p, chapterAt (s.drop j) = none) ∧
      p + len ≤ s.length := by
  intro s
  induction s with
  | nil => intro p len h; exact absurd h (by simp [findChapter])
  | cons c rest ih =>
    intro p len h
    rw [findChapter] at h
    cases hca : chapterAt (c :: rest) with
    | some l =>
      rw [hca] at h
      simp only [Option.some.injEq, Prod.mk.injEq] at h
      obtain ⟨rfl, rfl⟩ := h
      refine ⟨by simpa using hca, ?_, ?_⟩
      · intro j hj
        omega
      · have := (chapterAt_le hca).1
        simpa using this
    | none =>
      rw [hca] at h
      cases hf : findChapter rest with
      | none => rw [hf] at h; exact absurd h (by simp)
      | some ql =>
        rw [hf] at h
        obtain ⟨q, l⟩ := ql
        simp only [Option.map_some', Option.some.injEq, Prod.mk.injEq] at h
        obtain ⟨rfl, rfl⟩ := h
        obtain ⟨h1, h2, h3⟩ := ih hf
        refine ⟨by simpa using h1, ?_, ?_⟩
        · intro j hj
          match j with
          | 0 => simpa using hca
          | j' + 1 =>
            have := h2 j' (by omega)
            simpa using this
        · simp only [List.length_cons]
          omega

theorem findChapter_none : ∀ {s : List Char}, findChapter s = none →
    ∀ j, chapterAt (s.drop j) = none := by
  intro s
  induction s with
  | nil =>
    intro _ j
    rw [List.drop_nil]
    rfl
  | cons c rest ih =>
    intro h j
    rw [findChapter] at h
    cases hca : chapterAt (c :: rest) with
    | some l => rw [hca] at h; exact absurd h (by simp)
    | none =>
      rw [hca] at h
      have hf : findChapter rest = none := by
        cases hfr : findChapter rest with
        | none => rfl
        | some ql => rw [hfr] at h; exact absurd h (by simp)
      match j with
      | 0 => simpa using hca
      | j' + 1 => simpa using ih hf j'

theorem findChapter_eq_none {s : List Char} :
    findChapter s = none ↔ ∀ j, chapterAt (s.drop j) = none := by
  constructor
  · exact findChapter_none
  · intro h
    cases hf : findChapter s with
    | none => rfl
    | some pl =>
      obtain ⟨p, len⟩ := pl
      have := (findChapter_some hf).1
      rw [h p] at this
      exact absurd this (by simp)

/-! Locality of the chapter matcher: a successful match examines only
the characters it consumes, so it survives any extension of the text
after the match.  The key auxiliary fact is that when the lazy tail
`.*?\n\n` fails on a suffix, the whole group matcher fails on it too. -/

theorem lazyToBlank_ext : ∀ {v : List Char} {k : Nat}, lazyToBlank v = some k →
    ∀ ext, lazyToBlank (v.take k ++ ext) = some k := by
  intro v
  induction v with
  | nil => intro k h; exact absurd h (by simp [lazyToBlank])
  | cons a rest ih =>
    intro k h ext
    unfold lazyToBlank at h
    split_ifs at h with ha
    · match rest, h with
      | b :: t, h =>
        have h2 : (if b = '\n' then some 2 else none) = some k := h
        split_ifs at h2 with hb
        injection h2 with h'
        subst ha
        subst hb
        rw [← h']
        rfl
    · cases hr : lazyToBlank rest with
      | none => rw [hr] at h; exact absurd h (by simp)
      | some k2 =>
        rw [hr] at h
        simp only [Option.map_some', Option.some.injEq] at h
        have hih := ih hr ext
        rw [← h]
        have he : (a :: rest).take (k2 + 1) ++ ext = a :: (rest.take k2 ++ ext) := by
          simp
        rw [he]
        unfold lazyToBlank
        rw [if_neg ha, hih]
        rfl

theorem lazyToBlank_none_chapterBody : ∀ {l : List Char}, lazyToBlank l = none →
    chapterBody l = none := by
  intro l
  induction l with
  | nil => intro _; rfl
  | cons a rest ih =>
    intro h
    unfold lazyToBlank at h
    unfold chapterBody
    by_cases ha : a = '\n'
    · rw [if_pos ha]
    · rw [if_neg ha] at h
      have hrest : lazyToBlank rest = none := by
        cases hr : lazyToBlank rest with
        | none => rfl
        | some k => rw [hr] at h; exact absurd h (by simp)
      rw [if_neg ha]
      by_cases ht : a = '章' ∨ a = '話'
      · rw [if_pos ht]
        match rest, hrest with
        | [], _ => rfl
        | b :: v, hrest =>
          show (if b = '　' then
              (match lazyToBlank v with
               | some m => some (m + 2)
               | none => (chapterBody (b :: v)).map (· + 1))
              else (chapterBody (b :: v)).map (· + 1)) = none
          by_cases hbn : b = '\n'
          · have hcb : chapterBody (b :: v) = none := by
              unfold chapterBody
              rw [if_pos hbn]
            split_ifs with hb
            · rw [hb] at hbn
              exact absurd hbn (by decide)
            · rw [hcb]
              rfl
          · have hv : lazyToBlank v = none := by
              unfold lazyToBlank at hrest
              rw [if_neg hbn] at hrest
              cases hvv : lazyToBlank v with
              | none => rfl
              | some k => rw [hvv] at hrest; exact absurd hrest (by simp)
            have hcb : chapterBody (b :: v) = none := ih hrest
            split_ifs with hb
            · rw [hv, hcb]
              rfl
            · rw [hcb]
              rfl
      · rw [if_neg ht, ih hrest]
        rfl

theorem chapterBody_ext : ∀ {l : List Char} {k : Nat}, chapterBody l = some k →
    ∀ ext, chapterBody (l.take k ++ ext) = some k := by
  intro l
  induction l with
  | nil => intro k h; exact absurd h (by simp [chapterBody])
  | cons a rest ih =>
    intro k h ext
    unfold chapterBody at h
    split_ifs at h with ha ht
    · match rest, h with
      | b :: v, h =>
        have h2 : (if b = '　' then
            (match lazyToBlank v with
             | some m => some (m + 2)
             | none => (chapterBody (b :: v)).map (· + 1))
            else (chapterBody (b :: v)).map (· + 1)) = some k := h
        split_ifs at h2 with hb
        · cases hlb : lazyToBlank v with
          | some m =>
            rw [hlb] at h2
            simp only [Option.some.injEq] at h2
            have htake : (a :: b :: v).take k ++ ext = a :: b :: (v.take m ++ ext) := by
              rw [← h2]
              simp [List.take_succ_cons]
            rw [htake]
            show (if a = '\n' then none
              else if a = '章' ∨ a = '話' then
                (match b :: (v.take m ++ ext) with
                 | b2 :: v2 =>
                   if b2 = '　' then
                     (match lazyToBlank v2 with
                      | some m2 => some (m2 + 2)
                      | none => (chapterBody (b2 :: v2)).map (· + 1))
                   else (chapterBody (b2 :: v2)).map (· + 1)
                 | [] => none)
              else (chapterBody (b :: (v.take m ++ ext))).map (· + 1)) = some k
            rw [if_neg ha, if_pos ht]
            show (if b = '　' then
                (match lazyToBlank (v.take m ++ ext) with
                 | some m2 => some (m2 + 2)
                 | none => (chapterBody (b :: (v.take m ++ ext))).map (· + 1))
               else (chapterBody (b :: (v.take m ++ ext))).map (· + 1)) = some k
            rw [if_pos hb, lazyToBlank_ext hlb ext]
            exact congrArg some h2
          | none =>
            rw [hlb] at h2
            have hcb : chapterBody (b :: v) = none := by
              apply lazyToBlank_none_chapterBody
              unfold lazyToBlank
              rw [if_neg (by rw [hb]; decide), hlb]
              rfl
            rw [hcb] at h2
            exact absurd h2 (by simp)
        · cases hr : chapterBody (b :: v) with
          | none => rw [hr] at h2; exact absurd h2 (by simp)
          | some k2 =>
            rw [hr] at h2
            simp only [Option.map_some', Option.some.injEq] at h2
            have hk2 : 1 ≤ k2 := chapterBody_pos hr
            obtain ⟨k3, rfl⟩ : ∃ k3, k2 = k3 + 1 := ⟨k2 - 1, by omega⟩
            have hih := ih hr ext
            have htake : (a :: b :: v).take k ++ ext = a :: b :: (v.take k3 ++ ext) := by
              rw [← h2]
              simp [List.take_succ_cons]
            have hih2 : chapterBody (b :: (v.take k3 ++ ext)) = some (k3 + 1) := by
              have he2 : (b :: v).take (k3 + 1) ++ ext = b :: (v.take k3 ++ ext) := by
                simp [List.take_succ_cons]
              rw [← he2]
              exact hih
            rw [htake]
            show (if a = '\n' then none
              else if a = '章' ∨ a = '話' then
                (match b :: (v.take k3 ++ ext) with
                 | b2 :: v2 =>
                   if b2 = '　' then
                     (match lazyToBlank v2 with
                      | some m2 => some (m2 + 2)
                      | none => (chapterBody (b2 :: v2)).map (· + 1))
                   else (chapterBody (b2 :: v2)).map (· + 1)
                 | [] => none)
              else (chapterBody (b :: (v.take k3 ++ ext))).map (· + 1)) = some k
            rw [if_neg ha, if_pos ht]
            show (if b = '　' then
                (match lazyToBlank (v.take k3 ++ ext) with
                 | some m2 => some (m2 + 2)
                 | none => (chapterBody (b :: (v.take k3 ++ ext))).map (· + 1))
               else (chapterBody (b :: (v.take k3 ++ ext))).map (· + 1)) = some k
            rw [if_neg hb, hih2]
            simp only [Option.map_some']
            exact congrArg some h2
    · cases hr : chapterBody rest with
      | none => rw [hr] at h; exact absurd h (by simp)
      | some k2 =>
        rw [hr] at h
        simp only [Option.map_some', Option.some.injEq] at h
        have hih := ih hr ext
        have htake : (a :: rest).take k ++ ext = a :: (rest.take k2 ++ ext) := by
          rw [← h]
          simp [List.take_succ_cons]
        rw [htake]
        unfold chapterBody
        rw [if_neg ha, if_neg ht, hih]
        simp only [Option.map_some']
        exact congrArg some h

theorem chapterAt_ext {s : List Char} {len : Nat} (h : chapterAt s = some len)
    (ext : List Char) : chapterAt (s.take len ++ ext) = some len := by
  match s with
  | [] => exact absurd h (by simp [chapterAt])
  | [_] => exact absurd h (by simp [chapterAt])
  | a :: b :: rest =>
    rw [chapterAt] at h
    split_ifs at h with hab
    obtain ⟨rfl, rfl⟩ := hab
    cases hcb : chapterBody rest with
    | none => rw [hcb] at h; exact absurd h (by simp)
    | some k =>
      rw [hcb] at h
      simp only [Option.map_some', Option.some.injEq] at h
      have hext := chapterBody_ext hcb ext
      have htake : ('\n' :: '\n' :: rest).take len ++ ext =
          '\n' :: '\n' :: (rest.take k ++ ext) := by
        rw [← h]
        simp [List.take_succ_cons]
      rw [htake, chapterAt, if_pos ⟨rfl, rfl⟩, hext]
      simp only [Option.map_some']
      exact congrArg some h

theorem chapterAt_extend {s : List Char} {len : Nat} (h : chapterAt s = some len)
    (ext : List Char) : chapterAt (s ++ ext) = some len := by
  have he : s ++ ext = s.take len ++ (s.drop len ++ ext) := by
    rw [← List.append_assoc, List.take_append_drop]
  rw [he]
  exact chapterAt_ext h _

theorem pystrip_infix (s : List Char) : ∃ pre post, s = pre ++ pystrip s ++ post := by
  refine ⟨s.takeWhile isPySpace,
    (((s.dropWhile isPySpace).reverse.takeWhile isPySpace)).reverse, ?_⟩
  unfold pystrip
  set y := s.dropWhile isPySpace with hy
  have h1 : s = s.takeWhile isPySpace ++ y := (List.takeWhile_append_dropWhile _ _).symm
  have h2 : y.reverse = y.reverse.takeWhile isPySpace ++ y.reverse.dropWhile isPySpace :=
    (List.takeWhile_append_dropWhile _ _).symm
  have h3 : y = (y.reverse.dropWhile isPySpace).reverse ++
      (y.reverse.takeWhile isPySpace).reverse := by
    conv_lhs => rw [← List.reverse_reverse y, h2]
    rw [List.reverse_append]
  rw [List.append_assoc, ← h3]
  exact h1

/-- In a region of the text where no chapter match starts, the trimmed
region contains no chapter match either: a match inside the standalone
segment would extend (by locality of the matcher) to a match of the full
text starting inside the region. -/
theorem gap_no_match {S : List Char} {q : Nat} (hq : q ≤ S.length)
    (hgap : ∀ j < q, chapterAt (S.drop j) = none) :
    ∀ i, chapterAt ((pystrip (S.take q)).drop i) = none := by
  intro i
  by_cases hi : i < (pystrip (S.take q)).length
  case neg =>
    rw [List.drop_eq_nil_of_le (by omega)]
    rfl
  cases hca : chapterAt ((pystrip (S.take q)).drop i) with
  | none => rfl
  | some len =>
    exfalso
    obtain ⟨pre, post, hdecomp⟩ := pystrip_infix (S.take q)
    have hxlen : (S.take q).length = q := by
      simp [List.length_take, Nat.min_eq_left hq]
    have hse : S = S.take q ++ S.drop q := (List.take_append_drop _ _).symm
    have hlt : pre.length + i < q := by
      have hsum : pre.length + (pystrip (S.take q)).length ≤ q := by
        have := congrArg List.length hdecomp
        simp only [List.length_append] at this
        omega
      omega
    have h1 : S.drop (pre.length + i) =
        (pystrip (S.take q)).drop i ++ (post ++ S.drop q) := by
      conv_lhs => rw [hse]
      rw [List.drop_append_of_le_length (by omega)]
      have h2 : (S.take q).drop (pre.length + i) =
          (pystrip (S.take q)).drop i ++ post := by
        conv_lhs => rw [hdecomp]
        rw [List.append_assoc, List.drop_append_eq_append_drop,
          List.drop_eq_nil_of_le (by omega), List.nil_append]
        have : pre.length + i - pre.length = i := by omega
        rw [this, List.drop_append_of_le_length (by omega)]
      rw [h2, List.append_assoc]
    have hext : chapterAt (S.drop (pre.length + i)) = some len := by
      rw [h1]
      exact chapterAt_extend hca _
    rw [hgap _ hlt] at hext
    exact absurd hext (by simp)

/-- Every body produced by the chapter loop avoids the pattern: its
`start_next` bound comes from a fresh leftmost search, so no match
starts inside the body segment. -/
theorem entries_no_match (text : List Char) : ∀ (ms : List (Nat × Nat))
    (ch : List Char × List Char), ch ∈ chapterEntries text ms →
    findChapter ch.2 = none := by
  intro ms
  induction ms with
  | nil => intro ch h; exact absurd h (by simp [chapterEntries])
  | cons pl rest ih =>
    obtain ⟨p, len⟩ := pl
    intro ch hch
    rw [chapterEntries] at hch
    rcases List.mem_cons.mp hch with rfl | hmem
    · rw [findChapter_eq_none]
      show ∀ i, chapterAt ((pystrip ((text.drop (p + len)).take
        (chapterNext text (p + len) - (p + len)))).drop i) = none
      unfold chapterNext
      cases hf : findChapter (text.drop (p + len)) with
      | some ql =>
        obtain ⟨q, l2⟩ := ql
        obtain ⟨_, hbefore, hle⟩ := findChapter_some hf
        have he : p + len + q - (p + len) = q := by omega
        rw [he]
        exact gap_no_match (by omega) hbefore
      | none =>
        have he : text.length - (p + len) = (text.drop (p + len)).length := by
          simp [List.length_drop]
        rw [he]
        exact gap_no_match (le_refl _) (fun j _ => findChapter_none hf j)
    · exact ih ch hmem

/-- C10: no chapter body returned by `split_into_chapters` (the preface
body included) contains a match of the chapter-title pattern: every
title match of the text is consumed as a delimiter, and none survives
inside any body. -/
theorem claim_C10 (text : List Char) (ch : List Char × List Char)
    (hch : ch ∈ split_into_chapters text) : findChapter ch.2 = none := by
  rw [split_into_chapters] at hch
  rcases List.mem_cons.mp hch with rfl | hmem
  · rw [findChapter_eq_none]
    show ∀ i, chapterAt ((pystrip (text.take (prefaceEnd text))).drop i) = none
    cases hf : findChapter text with
    | some pl =>
      obtain ⟨p, len⟩ := pl
      have hpe : prefaceEnd text = p := by unfold prefaceEnd; rw [hf]
      rw [hpe]
      obtain ⟨_, hbefore, hle⟩ := findChapter_some hf
      exact gap_no_match (by omega) hbefore
    | none =>
      have hpe : prefaceEnd text = text.length := by unfold prefaceEnd; rw [hf]
      rw [hpe]
      refine gap_no_match (le_refl _) ?_
      intro j _
      exact findChapter_none hf j
  · exact entries_no_match text _ ch hmem

/-- Witness for C10 at a concrete input. -/
theorem claim_C10_witness :
    (("Preface".data, "Header".data) ∈
      split_into_chapters "Header\n\n章　A\n\nBody".data) ∧
    findChapter "Header".data = none := by
  refine ⟨by decide, ?_⟩
  exact claim_C10 "Header\n\n章　A\n\nBody".data ("Preface".data, "Header".data) (by decide)

/-! The match list produced by `finditer`, and the agreement between
the re-searched next match and the successor in the list. -/

theorem drop_drop_eq (text : List Char) (off k : Nat) :
    (text.drop off).drop k = text.drop (off + k) := by
  rw [List.drop_drop, Nat.add_comm]

theorem nextStartOf_eq_chapterNext (text : List Char) :
    ∀ (f e : Nat), (text.drop e).length < f →
    nextStartOf text (chapterMatchesFromF f (text.drop e) e) = chapterNext text e := by
  intro f e hf
  cases f with
  | zero => omega
  | succ f2 =>
    cases hfc : findChapter (text.drop e) with
    | none => simp [chapterMatchesFromF, hfc, nextStartOf, chapterNext]
    | some ql =>
      obtain ⟨q, l⟩ := ql
      simp [chapterMatchesFromF, hfc, nextStartOf, chapterNext]

theorem cmf_step_bound {text : List Char} {off p len fuel : Nat}
    (hfuel : (text.drop off).length < fuel + 1)
    (hf : findChapter (text.drop off) = some (p, len)) :
    (text.drop (off + p + len)).length < fuel := by
  obtain ⟨hat, _, hle⟩ := findChapter_some hf
  have hlen2 : 2 ≤ len := (chapterAt_le hat).2
  simp only [List.length_drop] at *
  omega

theorem chapterEntries_eq_specEntries (text : List Char) :
    ∀ (fuel off : Nat), (text.drop off).length < fuel →
    chapterEntries text (chapterMatchesFromF fuel (text.drop off) off) =
      specEntries text (chapterMatchesFromF fuel (text.drop off) off) := by
  intro fuel
  induction fuel with
  | zero => intro off h; omega
  | succ f ih =>
    intro off hfuel
    cases hf : findChapter (text.drop off) with
    | none => simp [chapterMatchesFromF, hf, chapterEntries, specEntries]
    | some pl =>
      obtain ⟨p, len⟩ := pl
      have hbound := cmf_step_bound hfuel hf
      have hdd : (text.drop off).drop (p + len) = text.drop (off + p + len) := by
        rw [drop_drop_eq]
        congr 1
        omega
      simp only [chapterMatchesFromF, hf, chapterEntries, specEntries, hdd]
      rw [nextStartOf_eq_chapterNext text f (off + p + len) hbound,
        ih (off + p + len) hbound]

theorem chapterEntries_length (text : List Char) :
    ∀ ms : List (Nat × Nat), (chapterEntries text ms).length = ms.length := by
  intro ms
  induction ms with
  | nil => rfl
  | cons pl rest ih =>
    obtain ⟨p, len⟩ := pl
    simp [chapterEntries, ih]

theorem prefaceEnd_eq_nextStartOf (text : List Char) :
    prefaceEnd text = nextStartOf text (chapterMatches text) := by
  unfold chapterMatches
  cases hf : findChapter text with
  | none =>
    have h1 : prefaceEnd text = text.length := by unfold prefaceEnd; rw [hf]
    cases text with
    | nil => rfl
    | cons c t =>
      simp [chapterMatchesFromF, hf, nextStartOf, h1]
  | some pl =>
    obtain ⟨p, len⟩ := pl
    have h1 : prefaceEnd text = p := by unfold prefaceEnd; rw [hf]
    cases text with
    | nil => exact absurd hf (by simp [findChapter])
    | cons c t =>
      simp [chapterMatchesFromF, hf, nextStartOf, h1]

/-- C2: for every text whose chapter pattern has N non-overlapping
matches, `split_into_chapters` returns exactly N + 1 chapters in source
order: the preface (body: the text before the first match, or the whole
text when N = 0, trimmed) followed by one chapter per match whose title
is the captured group trimmed and whose body is the text strictly
between the end of that match and the start of the next match (end of
document for the last one), trimmed — the shape `specChapters` states
directly from the match list. -/
theorem claim_C2 (text : List Char) :
    split_into_chapters text = specChapters text ∧
    (split_into_chapters text).length = (chapterMatches text).length + 1 := by
  constructor
  · unfold split_into_chapters specChapters
    rw [← prefaceEnd_eq_nextStartOf]
    have hlen : (text.drop 0).length < text.length + 1 := by simp
    have h := chapterEntries_eq_specEntries text (text.length + 1) 0 hlen
    simp only [List.drop_zero] at h
    rw [chapterMatches, h]
  · simp [split_into_chapters, chapterEntries_length]

/-- C8: `split_into_chapters` is a pure, deterministic function of its
text (and the fixed compiled pattern): equal inputs give identical
chapter lists.  In this embedding the function is pure by construction;
the only side effect of the source function is a diagnostic `print`,
which does not influence the returned list. -/
theorem claim_C8 (t₁ t₂ : List Char) (h : t₁ = t₂) :
    split_into_chapters t₁ = split_into_chapters t₂ := by
  rw [h]

/-- Witness for C8 at a concrete input. -/
theorem claim_C8_witness :
    split_into_chapters "a\n\n章　t\n\nb".data =
      split_into_chapters "a\n\n章　t\n\nb".data :=
  claim_C8 _ _ rfl

theorem interleave_segs (text : List Char) :
    ∀ (fuel off : Nat), (text.drop off).length < fuel →
    interleave (segsFrom text (chapterMatchesFromF fuel (text.drop off) off) off)
      (delimSpans text (chapterMatchesFromF fuel (text.drop off) off)) = text.drop off := by
  intro fuel
  induction fuel with
  | zero => intro off h; omega
  | succ f ih =>
    intro off hfuel
    cases hf : findChapter (text.drop off) with
    | none => simp [chapterMatchesFromF, hf, segsFrom, delimSpans, interleave]
    | some pl =>
      obtain ⟨p, len⟩ := pl
      have hbound := cmf_step_bound hfuel hf
      have hdd : (text.drop off).drop (p + len) = text.drop (off + p + len) := by
        rw [drop_drop_eq]
        congr 1
        omega
      simp only [chapterMatchesFromF, hf, segsFrom, delimSpans, List.map_cons,
        interleave, hdd]
      have ih2 := ih (off + p + len) hbound
      simp only [delimSpans] at ih2
      rw [ih2]
      have he1 : off + p - off = p := by omega
      rw [he1]
      have he2 : (text.drop (off + p)).take len ++ text.drop (off + p + len) =
          text.drop (off + p) := by
        conv_rhs => rw [← List.take_append_drop len (text.drop (off + p))]
        congr 1
        rw [drop_drop_eq]
      rw [List.append_assoc, he2]
      conv_rhs => rw [← List.take_append_drop p (text.drop off)]
      congr 1
      rw [drop_drop_eq]

theorem segs_map_pystrip (text : List Char) :
    ∀ (fuel off : Nat), (text.drop off).length < fuel →
    (segsFrom text (chapterMatchesFromF fuel (text.drop off) off) off).map pystrip =
      pystrip ((text.drop off).take
        (nextStartOf text (chapterMatchesFromF fuel (text.drop off) off) - off)) ::
      (chapterEntries text (chapterMatchesFromF fuel (text.drop off) off)).map Prod.snd := by
  intro fuel
  induction fuel with
  | zero => intro off h; omega
  | succ f ih =>
    intro off hfuel
    cases hf : findChapter (text.drop off) with
    | none =>
      simp only [chapterMatchesFromF, hf, segsFrom, chapterEntries, nextStartOf,
        List.map_cons, List.map_nil]
      have he : (text.drop off).take (text.length - off) = text.drop off := by
        apply List.take_of_length_le
        simp [List.length_drop]
      rw [he]
    | some pl =>
      obtain ⟨p, len⟩ := pl
      have hbound := cmf_step_bound hfuel hf
      have hdd : (text.drop off).drop (p + len) = text.drop (off + p + len) := by
        rw [drop_drop_eq]
        congr 1
        omega
      simp only [chapterMatchesFromF, hf, segsFrom, chapterEntries, nextStartOf,
        List.map_cons, hdd]
      rw [ih (off + p + len) hbound,
        nextStartOf_eq_chapterNext text f (off + p + len) hbound]

/-- C3 counterexample: concatenating the (trimmed) chapter bodies does
not reconstruct the text minus the title-delimiter spans, because each
body is stripped of leading and trailing whitespace: on
`"a \n\n章　t\n\nb"` the bodies concatenate to `"ab"` while the text
minus the single delimiter span is `"a b"`. -/
theorem claim_C3_cex :
    ((split_into_chapters "a \n\n章　t\n\nb".data).map Prod.snd).flatten ≠
      (segsFrom "a \n\n章　t\n\nb".data
        (chapterMatches "a \n\n章　t\n\nb".data) 0).flatten := by
  decide

/-- C3 (amended): the chapters are non-overlapping, contiguous
partitions of the post-substitution text: the raw segments outside the
match spans, interleaved with the delimiter spans, reconstruct the text
exactly, and the chapter bodies (preface first) are exactly those raw
segments trimmed of leading/trailing whitespace — so concatenating the
bodies reconstructs the text minus the delimiter spans only up to the
whitespace trimmed at each segment boundary. -/
theorem claim_C3 (text : List Char) :
    interleave (segsFrom text (chapterMatches text) 0)
      (delimSpans text (chapterMatches text)) = text ∧
    (split_into_chapters text).map Prod.snd =
      (segsFrom text (chapterMatches text) 0).map pystrip := by
  have hlen : (text.drop 0).length < text.length + 1 := by simp
  constructor
  · have h := interleave_segs text (text.length + 1) 0 hlen
    rw [chapterMatches]
    simpa using h
  · have h := segs_map_pystrip text (text.length + 1) 0 hlen
    simp only [List.drop_zero, Nat.sub_zero, List.take_zero] at h
    simp only [split_into_chapters, List.map_cons, chapterMatches]
    rw [h, prefaceEnd_eq_nextStartOf, chapterMatches]

/-! Cover discovery, spine construction and the effect model. -/

theorem findCoverAux_eq (files : List (List Char)) : ∀ es : List (List Char),
    findCoverAux files es =
      match es.find? (fun e => (globExt e files).length == 1) with
      | some e => (globExt e files).head?
      | none => none := by
  intro es
  induction es with
  | nil => rfl
  | cons e es ih =>
    by_cases h : (globExt e files).length = 1
    · simp [findCoverAux, h, List.find?_cons]
    · simp [findCoverAux, h, List.find?_cons, ih]

/-- C4: `find_cover_image` probes jpg, png, jpeg in that order; it
returns a filename iff some extension in that order has exactly one
matching file in the working directory; the result is the unique file
of the first such extension (`coverSpec`, taken verbatim from the
spec); with one `.jpg` and one `.png` it returns the `.jpg`; and it
signals `FileNotFoundError` (modelled as `none`) iff no extension
yields exactly one match, in particular with two `.jpg` files and no
other image. -/
theorem claim_C4 (files : List (List Char)) :
    find_cover_image files = coverSpec files ∧
    ((find_cover_image files).isSome ↔ ∃ e ∈ coverExts, (globExt e files).length = 1) ∧
    (∀ f, find_cover_image files = some f → ∃ e ∈ coverExts, globExt e files = [f]) ∧
    find_cover_image ["a.jpg".data, "b.png".data] = some "a.jpg".data ∧
    find_cover_image ["a.jpg".data, "b.jpg".data] = none := by
  have hbase : find_cover_image files = coverSpec files := by
    rw [find_cover_image, coverSpec, findCoverAux_eq]
  refine ⟨hbase, ?_, ?_, by decide, by decide⟩
  · rw [hbase, coverSpec]
    cases hfind : coverExts.find? (fun e => (globExt e files).length == 1) with
    | none =>
      simp only [Option.isSome_none]
      constructor
      · intro h
        exact absurd h (by simp)
      · intro ⟨e, he, hlen⟩
        have : (coverExts.find? (fun e => (globExt e files).length == 1)).isSome := by
          rw [List.find?_isSome]
          exact ⟨e, he, by simpa using hlen⟩
        rw [hfind] at this
        exact absurd this (by simp)
    | some e =>
      have hp := List.find?_some hfind
      have hlen : (globExt e files).length = 1 := by simpa using hp
      have hmem : e ∈ coverExts := List.mem_of_find?_eq_some hfind
      obtain ⟨f0, hf0⟩ := List.length_eq_one.mp hlen
      constructor
      · intro _
        exact ⟨e, hmem, hlen⟩
      · intro _
        show ((globExt e files).head?).isSome = true
        rw [hf0]
        simp
  · intro f hf
    rw [hbase, coverSpec] at hf
    cases hfind : coverExts.find? (fun e => (globExt e files).length == 1) with
    | none => rw [hfind] at hf; exact absurd hf (by simp)
    | some e =>
      rw [hfind] at hf
      have hp := List.find?_some hfind
      have hlen : (globExt e files).length = 1 := by simpa using hp
      have hmem : e ∈ coverExts := List.mem_of_find?_eq_some hfind
      obtain ⟨f0, hf0⟩ := List.length_eq_one.mp hlen
      have hf2 : (globExt e files).head? = some f := hf
      rw [hf0] at hf2
      simp only [List.head?_cons, Option.some.injEq] at hf2
      refine ⟨e, hmem, ?_⟩
      rw [hf0, hf2]

theorem strLe_trans : ∀ a b c : List Char,
    strLe a b = true → strLe b c = true → strLe a c = true := by
  intro a b c hab hbc
  simp only [strLe, decide_eq_true_eq] at *
  exact le_trans hab hbc

theorem strLe_total : ∀ a b : List Char, (strLe a b || strLe b a) = true := by
  intro a b
  rcases le_total a b with h | h <;> simp [strLe, h]

theorem addFrontAux_eq : ∀ (fs : List (List Char)) (acc : List SpineItem) (i : Nat),
    i = acc.length + 1 →
    addFrontAux acc i fs =
      acc ++ (withIdx i fs).map (fun p => SpineItem.front p.1 p.2) := by
  intro fs
  induction fs with
  | nil => intro acc i h; simp [addFrontAux, withIdx]
  | cons f fs ih =>
    intro acc i h
    have hins : acc.insertIdx (i - 1) (SpineItem.front i f) =
        acc ++ [SpineItem.front i f] := by
      have hi : i - 1 = acc.length := by omega
      rw [hi, List.insertIdx_length_self]
    have hlen2 : i + 1 = (acc ++ [SpineItem.front i f]).length + 1 := by
      simp only [List.length_append, List.length_cons, List.length_nil]
      omega
    rw [addFrontAux, hins, ih (acc ++ [SpineItem.front i f]) (i + 1) hlen2]
    simp [withIdx]

theorem addChaptersAux_eq : ∀ (cs : List (List Char × List Char))
    (acc : List SpineItem) (i : Nat),
    addChaptersAux acc i cs =
      acc ++ (withIdx i cs).map (fun p => SpineItem.page p.1 p.2.1) := by
  intro cs
  induction cs with
  | nil => intro acc i; simp [addChaptersAux, withIdx]
  | cons c cs ih =>
    intro acc i
    rw [addChaptersAux, ih (acc ++ [SpineItem.page i c.1]) (i + 1)]
    simp [withIdx]

/-- C5: the reading order built by `main` is exactly the front-matter
image pages in ascending lexicographic filename order (the growing
prefix insertion `spine.insert(i-1, …)` on the initially empty spine
preserves the sorted order, it does not reverse it), followed by the
chapter pages in chapter order, the preface page first. -/
theorem claim_C5 (front_files : List (List Char)) (text : List Char) :
    mainSpine front_files text =
      (withIdx 1 (sortFiles front_files)).map (fun p => SpineItem.front p.1 p.2) ++
      (withIdx 1 (split_into_chapters text)).map (fun p => SpineItem.page p.1 p.2.1) ∧
    List.Pairwise (fun a b => strLe a b = true) (sortFiles front_files) ∧
    (sortFiles front_files).Perm front_files ∧
    (split_into_chapters text).head?.map Prod.fst = some "Preface".data := by
  refine ⟨?_, ?_, ?_, rfl⟩
  · rw [mainSpine, addFrontAux_eq _ [] 1 (by simp), addChaptersAux_eq]
    simp
  · exact List.sorted_mergeSort strLe_trans strLe_total front_files
  · exact List.mergeSort_perm front_files strLe

/-- C7: the run writes at most one file; when it completes, the
filesystem trace consists of reads followed by exactly one final write
of the output file, named after the text file with `.txt` replaced by
`.epub`; when it aborts (no text file, or cover discovery fails), no
write has happened. -/
theorem claim_C7 (d : Dir) :
    ((mainRun d).2 = .ok () →
      ∃ t, (d.cwd.filter isTxt).head? = some t ∧
        (mainRun d).1.filter isWriteEff =
          [Effect.write (t.take (t.length - 4) ++ ".epub".data)] ∧
        (mainRun d).1.getLast? =
          some (Effect.write (t.take (t.length - 4) ++ ".epub".data))) ∧
    (∀ e, (mainRun d).2 = .error e → (mainRun d).1.filter isWriteEff = []) := by
  have hreads : ∀ l : List (List Char), (l.map Effect.read).filter isWriteEff = [] := by
    intro l
    induction l with
    | nil => rfl
    | cons a l ih => simp [isWriteEff, ih]
  unfold mainRun
  cases htxt : (d.cwd.filter isTxt).head? with
  | none =>
    refine ⟨fun h => absurd h (by simp), fun e _ => rfl⟩
  | some txt =>
    cases hcov : find_cover_image d.cwd with
    | none =>
      refine ⟨fun h => absurd h (by simp), fun e _ => rfl⟩
    | some cover =>
      constructor
      · intro _
        refine ⟨txt, rfl, ?_, ?_⟩
        · simp [List.filter_append, hreads, isWriteEff]
        · simp only [List.append_assoc]
          rw [← List.append_assoc, ← List.append_assoc, ← List.append_assoc,
            List.getLast?_concat]
      · intro e he
        exact absurd he (by simp)

/-- Witness for C7 at a concrete filesystem: one text file, one cover. -/
theorem claim_C7_witness :
    (mainRun ⟨["a.txt".data, "c.jpg".data], [], [], fun _ => []⟩).2 = .ok () ∧
    (mainRun ⟨["a.txt".data, "c.jpg".data], [], [], fun _ => []⟩).1.filter isWriteEff =
      [Effect.write "a.epub".data] := by
  refine ⟨rfl, ?_⟩
  obtain ⟨t, ht, hw, _⟩ :=
    (claim_C7 ⟨["a.txt".data, "c.jpg".data], [], [], fun _ => []⟩).1 rfl
  have ht2 : t = "a.txt".data := by
    have : (List.filter isTxt ["a.txt".data, "c.jpg".data]).head? =
        some "a.txt".data := by decide
    rw [this] at ht
    injection ht with h
    exact h.symm
  rw [hw, ht2]
  decide

-- sanity checks of the embedding on concrete inputs
example :
    split_into_chapters
      "Header\n\n\n\n第一章　開始\n\nHello\n\n\n\n第二章　結束\n\nWorld".data =
    [("Preface".data, "Header".data), ("第一章　開始".data, "Hello".data),
     ("第二章　結束".data, "World".data)] := by decide
example : replace_placeholders_with_images "a\n插圖\nb".data [] = "a\n插圖\nb".data := by
  decide
example : chapterAt "\n\n章　a\n\nrest".data = some 7 := by decide
example : chapterAt "\n\n章x　a\n\n".data = none := by decide
example : pystrip "  a b\n".data = "a b".data := by decide
example : find_cover_image ["x.txt".data, "a.jpeg".data] = some "a.jpeg".data := by decide
example : find_cover_image [".jpg".data] = none := by decide
example : strLe "a10.jpg".data "a2.jpg".data = true := by decide
example : strLe "a2.jpg".data "a10.jpg".data = false := by decide
example : strLe "a".data "ab".data = true := by decide
example : markerAt "\n插圖\nx".data = some 4 := by decide
example : markerAt "\n（插圖）\nx".data = some 6 := by decide
example : markerAt "\n（插圖\n".data = some 5 := by decide
example : markerAt "\n插圖）\n".data = some 5 := by decide
example : markerAt "\n插圖）x".data = none := by decide
example : markerAt "插圖\n".data = none := by decide
example : markerCount "\n插圖\n插圖\n".data = 2 := by decide
example :
    replace_placeholders_with_images "a\n插圖\nb".data ["x".data] =
      "a\n<img src=\"images/x\" alt=\"x\"/>\nb".data := by decide
example :
    replace_placeholders_with_images "\n插圖\n插圖\n".data ["u".data, "v".data] =
      ("\n<img src=\"images/u\" alt=\"u\"/>" ++
       "\n<img src=\"images/v\" alt=\"v\"/>\n").data := by decide
example : numReplaced "\n插圖\n插圖\n".data ["u".data] = 1 := by decide
